import Mathlib

/-!
# Verification of the qiros-server synchronization core

Shallow embedding of `src/git-handler.ts` (the current version, the one that
exports `commitMultipleFiles`): the repository locator `parseRepoUrl`, the
branch bootstrap `createBranch`, the single-file synchronizer `syncFile`, the
atomic multi-file commit engine `commitMultipleFiles`, and the rollback engine
`revertToVersion`.

The remote provider (GitHub's REST and Git Data APIs, reached through Octokit)
is an external collaborator; it is modelled from the spec's interface
description (spec section 6: blob create, tree create with base tree, commit
create with parents, ref read/update, content read) as a state machine over an
explicit object store `GitState`.  SHAs are modelled as allocation-order
naturals.  The transfer encodings used by the code (Node's `Buffer` base64 and
utf-8 conversions) are modelled executably: base64 is implemented for real over
byte lists, and the text/byte conversion is modelled as the codepoint sequence
(exact for byte-valued text; theorems that need the round trip carry an
explicit byte-valued-content hypothesis).
-/

/-! ## Bytes and transfer encodings -/

/-- A byte sequence; every meaningful byte is `< 256`. -/
abbrev Bytes := List Nat

/-- Modelled from the spec: the utf-8 transfer encoding of a JS string, as used
by `Buffer.from(s, "utf-8")`.  Modelled as the codepoint sequence, which agrees
with utf-8 on byte-valued (ASCII / Latin-1) text and is injective on all
strings. -/
def textBytes (s : String) : Bytes := s.data.map Char.toNat

/-- Modelled from the spec: the utf-8 decoding of a byte sequence, as used by
`buffer.toString("utf-8")`.  Inverse of `textBytes` on byte-valued content. -/
def textOfBytes (b : Bytes) : String := ⟨b.map Char.ofNat⟩

/-- The base64 alphabet as a function from a sextet value to its character. -/
def b64Char (n : Nat) : Char :=
  "ABCDEFGHIJKLMNOPQRSTUVWXYZabcdefghijklmnopqrstuvwxyz0123456789+/".data.getD n '?'

/-- The value of a base64 alphabet character (sextet-valued by construction;
characters outside the alphabet decode as platform-defined junk). -/
def b64Val (c : Char) : Nat :=
  match "ABCDEFGHIJKLMNOPQRSTUVWXYZabcdefghijklmnopqrstuvwxyz0123456789+/".data.indexOf? c with
  | some i => i % 64
  | none => 0

/-- Base64 encoding of a byte list, three bytes to four characters, with
`'='` padding, as produced by `buffer.toString("base64")`. -/
def b64EncCore : List Nat → List Char
  | [] => []
  | [a] => [b64Char (a / 4), b64Char (a % 4 * 16), '=', '=']
  | [a, b] => [b64Char (a / 4), b64Char (a % 4 * 16 + b / 16), b64Char (b % 16 * 4), '=']
  | a :: b :: c :: rest =>
    b64Char (a / 4) :: b64Char (a % 4 * 16 + b / 16) ::
      b64Char (b % 16 * 4 + c / 64) :: b64Char (c % 64) :: b64EncCore rest

/-- Base64 encoding, packaged as a string-producing function. -/
def base64Encode (b : Bytes) : String := ⟨b64EncCore b⟩

/-- Base64 decoding of a padding-stripped sextet list, four sextets to three
bytes (trailing groups of two or three sextets yield one or two bytes). -/
def b64DecCore : List Nat → Bytes
  | a :: b :: c :: d :: rest =>
    (a * 4 + b / 16) :: (b % 16 * 16 + c / 4) :: (c % 4 * 64 + d) :: b64DecCore rest
  | [a, b] => [a * 4 + b / 16]
  | [a, b, c] => [a * 4 + b / 16, b % 16 * 16 + c / 4]
  | _ => []

/-- Base64 decoding of a string, as performed by `Buffer.from(s, "base64")`:
padding characters are ignored and the sextet stream is reassembled into
bytes. -/
def base64Decode (s : String) : Bytes :=
  b64DecCore ((s.data.filter (· ≠ '=')).map b64Val)

/-- A byte-valued string: every character's codepoint fits in a byte.  All the
file contents handled by the concrete scenarios of the spec (JSON documents,
markdown, base64 text) are byte-valued. -/
def ByteText (s : String) : Prop := ∀ c ∈ s.data, c.toNat < 256

instance (s : String) : Decidable (ByteText s) := by
  unfold ByteText; infer_instance

/-! ## The remote object store

Modelled from the spec (sections 3 and 6): the provider owns content-addressed
blob, tree and commit objects and mutable branch refs.  SHAs are modelled as
allocation-order naturals (`nextSha` is the next fresh one); object maps are
association lists from SHA to object. -/

/-- A blob as created over the wire: the content string together with the
declared transfer encoding (`"utf-8"` or `"base64"`). -/
structure BlobObj where
  content : String
  encoding : String
deriving Repr, DecidableEq

/-- The raw bytes a stored blob denotes. -/
def blobBytes (b : BlobObj) : Bytes :=
  if b.encoding = "base64" then base64Decode b.content else textBytes b.content

/-- One entry of a tree: path, file mode, object type and the blob's SHA. -/
structure TreeEntry where
  path : String
  mode : String
  type : String
  sha : Nat
deriving Repr, DecidableEq

/-- A commit object: message, tree SHA and parent commit SHAs. -/
structure CommitObj where
  message : String
  tree : Nat
  parents : List Nat
deriving Repr, DecidableEq

/-- The provider-side state of one repository: object stores, branch refs and
the repository's configured default branch name. -/
structure GitState where
  blobs : List (Nat × BlobObj)
  trees : List (Nat × List TreeEntry)
  commits : List (Nat × CommitObj)
  refs : List (String × Nat)
  defaultBranch : String
  nextSha : Nat
deriving Repr

/-- The well-formedness invariant of a reachable provider state: every
allocated SHA, and every SHA referenced from a ref, tree entry or commit
object, is below the allocation counter. -/
def WfState (s : GitState) : Prop :=
  (∀ p ∈ s.blobs, p.1 < s.nextSha) ∧
  (∀ p ∈ s.trees, p.1 < s.nextSha ∧ ∀ e ∈ p.2, e.sha < s.nextSha) ∧
  (∀ p ∈ s.commits, p.1 < s.nextSha ∧ p.2.tree < s.nextSha ∧
    ∀ q ∈ p.2.parents, q < s.nextSha) ∧
  (∀ p ∈ s.refs, p.2 < s.nextSha)

instance (s : GitState) : Decidable (WfState s) := by
  unfold WfState; infer_instance

/-- `s'` extends `s` with freshly-allocated objects only: every object store
grows by a batch of entries whose SHAs were not yet allocated in `s`, and the
allocation counter does not go back.  Branch refs may change. -/
def StepExt (s s' : GitState) : Prop :=
  s.nextSha ≤ s'.nextSha ∧
  (∃ d, s'.blobs = d ++ s.blobs ∧ ∀ p ∈ d, s.nextSha ≤ p.1) ∧
  (∃ d, s'.trees = d ++ s.trees ∧ ∀ p ∈ d, s.nextSha ≤ p.1) ∧
  (∃ d, s'.commits = d ++ s.commits ∧ ∀ p ∈ d, s.nextSha ≤ p.1)

/-- Update the first binding of a key in an association list (the semantics of
updating an existing ref). -/
def setAssoc : List (String × Nat) → String → Nat → List (String × Nat)
  | [], _, _ => []
  | (k, v) :: t, key, val =>
    if k = key then (key, val) :: t else (k, v) :: setAssoc t key val

/-- An error surfaced by the provider or thrown by the handler code: either an
HTTP failure with a status code or a plain thrown `Error` message. -/
inductive GhErr where
  | http (status : Nat)
  | thrown (msg : String)
deriving Repr, DecidableEq

/-- The `error.status === 404` test the handlers perform (a plain thrown
`Error` has no `status` field, so the test is false for it). -/
def GhErr.is404 : GhErr → Bool
  | .http 404 => true
  | _ => false

/-! ### Provider primitives (the Object-Store Client Facade)

Each is modelled from the spec's interface description, one state transition
per remote call. -/

/-- Modelled from the spec: `blob create(content, encoding) → sha`. -/
def createBlob (s : GitState) (content encoding : String) : GitState × Nat :=
  ({ s with blobs := (s.nextSha, ⟨content, encoding⟩) :: s.blobs, nextSha := s.nextSha + 1 },
    s.nextSha)

/-- Modelled from the spec: `tree create(baseTreeSha, entries) → sha`; the
provider merges the entries against the base tree: named paths are replaced,
untouched paths are inherited unchanged. -/
def createTree (s : GitState) (baseTree : Nat) (items : List TreeEntry) :
    Except GhErr (GitState × Nat) :=
  match s.trees.lookup baseTree with
  | none => .error (.http 404)
  | some base =>
    let merged := items ++ base.filter (fun e => items.all (fun i => ¬ i.path = e.path))
    .ok ({ s with trees := (s.nextSha, merged) :: s.trees, nextSha := s.nextSha + 1 }, s.nextSha)

/-- Modelled from the spec: `commit create(message, treeSha, parents) → sha`. -/
def createCommit (s : GitState) (message : String) (tree : Nat) (parents : List Nat) :
    GitState × Nat :=
  ({ s with
      commits := (s.nextSha, CommitObj.mk message tree parents) :: s.commits
      nextSha := s.nextSha + 1 },
    s.nextSha)

/-- Modelled from the spec: read a branch ref's head commit SHA. -/
def getRef (s : GitState) (branch : String) : Option Nat :=
  s.refs.lookup branch

/-- Modelled from the spec: `ref update(name, sha)`; fails when the ref does
not exist. -/
def updateRef (s : GitState) (branch : String) (sha : Nat) : Except GhErr GitState :=
  match s.refs.lookup branch with
  | none => .error (.http 404)
  | some _ => .ok { s with refs := setAssoc s.refs branch sha }

/-- Modelled from the spec: create a new ref; fails when it already exists. -/
def createRef (s : GitState) (branch : String) (sha : Nat) : Except GhErr GitState :=
  match s.refs.lookup branch with
  | some _ => .error (.http 422)
  | none => .ok { s with refs := (branch, sha) :: s.refs }

/-- Modelled from the spec: read a commit object. -/
def getCommit (s : GitState) (sha : Nat) : Option CommitObj :=
  s.commits.lookup sha

/-- Look a path up in a list of tree entries (the first binding wins). -/
def entryLookup (es : List TreeEntry) (path : String) : Option TreeEntry :=
  es.find? (fun e => e.path = path)

/-- A `ref` string handed to the contents API is resolved as a branch name
first and as a commit SHA otherwise (the code passes both kinds). -/
inductive RefSpec where
  | branch (name : String)
  | commit (sha : Nat)
deriving Repr, DecidableEq

/-- Resolve a ref specification to a commit SHA. -/
def resolveRef (s : GitState) (r : RefSpec) : Option Nat :=
  match r with
  | .branch n => getRef s n
  | .commit sha => if (s.commits.lookup sha).isSome then some sha else none

/-- The blob SHA a path resolves to at a given commit. -/
def fileShaAtCommit (s : GitState) (commitSha : Nat) (path : String) : Option Nat :=
  match getCommit s commitSha with
  | none => none
  | some c =>
    match s.trees.lookup c.tree with
    | none => none
    | some es => (entryLookup es path).map (·.sha)

/-- The stored blob a path resolves to at a given commit. -/
def fileBlobAtCommit (s : GitState) (commitSha : Nat) (path : String) : Option BlobObj :=
  match fileShaAtCommit s commitSha path with
  | none => none
  | some bsha => s.blobs.lookup bsha

/-- The observable bytes of a path at a given commit. -/
def fileBytesAtCommit (s : GitState) (commitSha : Nat) (path : String) : Option Bytes :=
  (fileBlobAtCommit s commitSha path).map blobBytes

/-- The observable bytes of a path on a branch — what a reader of the branch
sees at any instant. -/
def branchFileBytes (s : GitState) (branch path : String) : Option Bytes :=
  match getRef s branch with
  | none => none
  | some head => fileBytesAtCommit s head path

/-- Modelled from the spec: `content read(path, ref) → {content (base64), sha}`
— the provider returns the blob's bytes base64-encoded together with the blob
SHA, or a 404 when the ref or the path is absent. -/
def getContentApi (s : GitState) (r : RefSpec) (path : String) :
    Except GhErr (String × Nat) :=
  match resolveRef s r with
  | none => .error (.http 404)
  | some commitSha =>
    match fileShaAtCommit s commitSha path with
    | none => .error (.http 404)
    | some bsha =>
      match s.blobs.lookup bsha with
      | none => .error (.http 404)
      | some b => .ok (base64Encode (blobBytes b), bsha)

/-- Modelled from the spec: create a tree with no base (only used by the
bootstrap write on an empty repository). -/
def createTreeRoot (s : GitState) (items : List TreeEntry) : GitState × Nat :=
  ({ s with trees := (s.nextSha, items) :: s.trees, nextSha := s.nextSha + 1 }, s.nextSha)

/-- The commit-performing tail of the contents write: blob, tree merged over
the head's base tree, commit with the head as single parent, ref update. -/
def contentsWrite (s : GitState) (path message content branch : String)
    (head baseTree : Nat) : Except GhErr (GitState × Nat) :=
  let (s1, bsha) := createBlob s content "base64"
  match createTree s1 baseTree [TreeEntry.mk path "100644" "blob" bsha] with
  | .error e => .error e
  | .ok (s2, tsha) =>
    let (s3, csha) := createCommit s2 message tsha [head]
    match updateRef s3 branch csha with
    | .error e => .error e
    | .ok s4 => .ok (s4, csha)

/-- Modelled from the spec: the provider's create-or-update contents call
(`createOrUpdateFileContents`).  Content arrives base64-encoded.  Optimistic
concurrency: updating an existing file demands the caller's SHA match the
stored blob's, creating a new file demands no SHA.  Writing to a branch that
does not exist succeeds only when the repository is empty (no refs yet), in
which case the single write creates the branch and its first, parentless
commit. -/
def createOrUpdateFileContents (s : GitState) (path message content branch : String)
    (sha : Option Nat) : Except GhErr (GitState × Nat) :=
  match getRef s branch with
  | none =>
    if s.refs.isEmpty then
      let (s1, bsha) := createBlob s content "base64"
      let (s2, tsha) := createTreeRoot s1 [TreeEntry.mk path "100644" "blob" bsha]
      let (s3, csha) := createCommit s2 message tsha []
      match createRef s3 branch csha with
      | .error e => .error e
      | .ok s4 => .ok (s4, csha)
    else .error (.http 404)
  | some head =>
    match getCommit s head with
    | none => .error (.http 404)
    | some headCommit =>
      match s.trees.lookup headCommit.tree with
      | none => .error (.http 404)
      | some baseEntries =>
        match entryLookup baseEntries path, sha with
        | some e, some given =>
          if given = e.sha then contentsWrite s path message content branch head headCommit.tree
          else .error (.http 409)
        | some _, none => .error (.http 422)
        | none, some _ => .error (.http 422)
        | none, none => contentsWrite s path message content branch head headCommit.tree

/-! ## The repository locator (`parseRepoUrl`)

The source parses the URL with the WHATWG `URL` constructor (modelled as an
`Option String` input: `none` when the constructor throws, `some pathname`
otherwise), then runs `pathname.replace(/^\/|\.git$/g, "")` and splits on
`"/"`.  The regex replace removes one leading slash and one trailing `".git"`
in a single pass over the original string; character-level equivalents are
spelled out below. -/

/-- Remove one leading `'/'` (the `^\/` alternative of the regex). -/
def stripLead (l : List Char) : List Char :=
  if l.head? = some '/' then l.tail else l

/-- The four characters of the version-control suffix. -/
def gitSuffix : List Char := ['.', 'g', 'i', 't']

/-- Whether the character list ends with `".git"`. -/
def endsGit (l : List Char) : Bool :=
  decide (4 ≤ l.length) && decide (l.drop (l.length - 4) = gitSuffix)

/-- Remove one trailing `".git"` (the `\.git$` alternative of the regex). -/
def dropGitSuffix (l : List Char) : List Char :=
  if endsGit l then l.take (l.length - 4) else l

/-- `pathname.replace(/^\/|\.git$/g, "")`. -/
def stripSlashGit (l : List Char) : List Char := dropGitSuffix (stripLead l)

/-- JavaScript's `String.split("/")`: the empty string yields `[""]`, and
consecutive or trailing separators yield empty segments. -/
def splitOnSlash : List Char → List (List Char)
  | [] => [[]]
  | '/' :: t => [] :: splitOnSlash t
  | c :: t =>
    match splitOnSlash t with
    | h :: r => (c :: h) :: r
    | [] => [[c]]

/-- Join segments back with `'/'` separators (inverse of `splitOnSlash`). -/
def joinSlash : List (List Char) → List Char
  | [] => []
  | [x] => x
  | x :: xs => x ++ '/' :: joinSlash xs

/-- The two-part repository identifier `{owner, repo}`. -/
structure RepoRef where
  owner : String
  repo : String
deriving Repr, DecidableEq

/-- The failure of the repository locator (both throw sites of the source end
in the same wrapped invalid-address error). -/
inductive ParseError where
  | invalidRepositoryAddress
deriving Repr, DecidableEq

/-- `parseRepoUrl`: normalize the pathname, split on `"/"`, demand at least
two parts (`parts.length < 2` throws) and return the first two. -/
def parseRepoUrl (url : Option String) : Except ParseError RepoRef :=
  match url with
  | none => .error .invalidRepositoryAddress
  | some pathname =>
    match splitOnSlash (stripSlashGit pathname.data) with
    | a :: b :: _ => .ok ⟨⟨a⟩, ⟨b⟩⟩
    | _ => .error .invalidRepositoryAddress

/-! ## The source handlers -/

/-- A JavaScript `string | Buffer` content value. -/
inductive JSContent where
  | str (text : String)
  | buf (bytes : Bytes)
deriving Repr, DecidableEq

/-- The blob-creation payload `commitMultipleFiles` derives from a file's
content: a Buffer is base64-encoded with encoding `"base64"`, a string is
passed through with encoding `"utf-8"`. -/
def encodeSnap : JSContent → BlobObj
  | .str t => ⟨t, "utf-8"⟩
  | .buf b => ⟨base64Encode b, "base64"⟩

/-- The base64 payload `syncFile` derives from its content for the contents
API (`Buffer.isBuffer(c) ? c.toString("base64") :
Buffer.from(c, "utf-8").toString("base64")`). -/
def jsToBase64 : JSContent → String
  | .str t => base64Encode (textBytes t)
  | .buf b => base64Encode b

/-- One file of a multi-file commit: `{path, content}`. -/
structure FileSnap where
  path : String
  content : JSContent
deriving Repr, DecidableEq

/-- The try/catch around `syncFile`'s initial `getContent` call: a successful
read yields the file's SHA, a 404 leaves the SHA undefined (file does not
exist yet), any other error is rethrown. -/
def syncFileShaRead (r : Except GhErr (String × Nat)) : Except GhErr (Option Nat) :=
  match r with
  | .ok (_, sha) => .ok (some sha)
  | .error e => if e.is404 then .ok none else .error e

/-- `syncFile`: read the file's current SHA on the branch, then write the new
content through the create-or-update contents call, supplying the
previously-read SHA when present. -/
def syncFile (s : GitState) (branch filePath : String) (newContent : JSContent)
    (commitMessage : String) : Except GhErr (GitState × Nat) :=
  match syncFileShaRead (getContentApi s (.branch branch) filePath) with
  | .error e => .error e
  | .ok fileSha =>
    createOrUpdateFileContents s filePath commitMessage (jsToBase64 newContent) branch fileSha

/-- The blob-creation loop of `commitMultipleFiles` (step 2): one blob per
file, one `{path, mode: "100644", type: "blob", sha}` tree item per file. -/
def createBlobs (s : GitState) : List FileSnap → GitState × List TreeEntry
  | [] => (s, [])
  | f :: rest =>
    let enc := encodeSnap f.content
    let (s1, bsha) := createBlob s enc.content enc.encoding
    let (s2, items) := createBlobs s1 rest
    (s2, TreeEntry.mk f.path "100644" "blob" bsha :: items)

/-- `commitMultipleFiles`: read head commit and its base tree (step 1), create
the blobs (step 2), build one tree on the base tree (step 3), create one
commit whose single parent is the head read in step 1 (step 4), then update
the branch ref (step 5). -/
def commitMultipleFiles (s : GitState) (branch : String) (files : List FileSnap)
    (commitMessage : String) : Except GhErr (GitState × Nat) :=
  match getRef s branch with
  | none => .error (.http 404)
  | some latestCommitSha =>
    match getCommit s latestCommitSha with
    | none => .error (.http 404)
    | some latestCommit =>
      let baseTreeSha := latestCommit.tree
      let (s1, treeItems) := createBlobs s files
      match createTree s1 baseTreeSha treeItems with
      | .error e => .error e
      | .ok (s2, newTreeSha) =>
        let (s3, newCommitSha) := createCommit s2 commitMessage newTreeSha [latestCommitSha]
        match updateRef s3 branch newCommitSha with
        | .error e => .error e
        | .ok s4 => .ok (s4, newCommitSha)

/-- The provider states visited after each remote call of
`commitMultipleFiles`, in program order (blob creations may be issued
concurrently by the source's `Promise.all`; each of them individually
preserves refs, trees and commits, so any interleaving visits states whose
branch observations agree with this sequential trace). -/
def createBlobsStates (s : GitState) : List FileSnap → List GitState
  | [] => []
  | f :: rest =>
    let enc := encodeSnap f.content
    let (s1, _) := createBlob s enc.content enc.encoding
    s1 :: createBlobsStates s1 rest

/-- The full state trace of a `commitMultipleFiles` run: the state during
steps 1-2 (reads mutate nothing), the state after each blob creation, after
tree creation, after commit creation, and after the ref update. -/
def commitMultipleFilesTrace (s : GitState) (branch : String) (files : List FileSnap)
    (commitMessage : String) : Except GhErr (List GitState × Nat) :=
  match getRef s branch with
  | none => .error (.http 404)
  | some latestCommitSha =>
    match getCommit s latestCommitSha with
    | none => .error (.http 404)
    | some latestCommit =>
      let baseTreeSha := latestCommit.tree
      let (s1, treeItems) := createBlobs s files
      match createTree s1 baseTreeSha treeItems with
      | .error e => .error e
      | .ok (s2, newTreeSha) =>
        let (s3, newCommitSha) := createCommit s2 commitMessage newTreeSha [latestCommitSha]
        match updateRef s3 branch newCommitSha with
        | .error e => .error e
        | .ok s4 =>
          .ok (s :: createBlobsStates s files ++ [s2, s3, s4], newCommitSha)

/-- `getFileContent`: wraps the provider's content read; a 404 becomes `none`
("file absent"), other errors are rethrown, success yields the base64 content
and the blob SHA. -/
def getFileContent (s : GitState) (hash : RefSpec) (fileName : String) :
    Except GhErr (Option (String × Nat)) :=
  match getContentApi s hash fileName with
  | .ok fileData => .ok (some fileData)
  | .error e => if e.is404 then .ok none else .error e

/-- The fixed fallback seed content of the bootstrap path of `createBranch`. -/
def fallbackReadme : String :=
  "# Qiros角色卡仓库\n\n此仓库由SillyTavern的Qiros扩展创建和管理。"

/-- The seed content the bootstrap path settles on: the caller-supplied
content when it is present and non-empty (JavaScript's
`readmeContent || fallback` treats the empty string as falsy), the fixed
fallback otherwise. -/
def chosenReadme (readmeContent : Option String) : String :=
  match readmeContent with
  | some c => if c = "" then fallbackReadme else c
  | none => fallbackReadme

/-- What `createBranch` returns: either a created ref or the bootstrap
result. -/
inductive CreateBranchResult where
  | refCreated (branch : String) (sha : Nat)
  | bootstrapped (branch : String) (commitSha : Nat)
deriving Repr, DecidableEq

/-- The try block of `createBranch`'s no-base path: read the repository's
default branch (`repos.get` always answers in this single-repository model),
read its head (404 when the ref does not exist, i.e. the repository is
empty), and create the new ref at that head. -/
def createBranchTry (s : GitState) (newBranchName : String) :
    Except GhErr (GitState × CreateBranchResult) :=
  match getRef s s.defaultBranch with
  | none => .error (.http 404)
  | some fromCommitSha =>
    match createRef s newBranchName fromCommitSha with
    | .error e => .error e
    | .ok s1 => .ok (s1, .refCreated newBranchName fromCommitSha)

/-- The catch block of `createBranch`'s no-base path: a 404 means the
repository is empty, so bootstrap it by writing a seed `README.md` (caller
content, or the fixed fallback when the caller content is absent or empty —
JavaScript's `readmeContent || fallback`) directly on the new branch with the
message `"Initial commit"`; any other error is rethrown. -/
def createBranchCatch (s : GitState) (newBranchName : String)
    (readmeContent : Option String) (e : GhErr) :
    Except GhErr (GitState × CreateBranchResult) :=
  if e.is404 then
    let finalReadmeContent := chosenReadme readmeContent
    match createOrUpdateFileContents s "README.md" "Initial commit"
        (base64Encode (textBytes finalReadmeContent)) newBranchName none with
    | .error e2 => .error e2
    | .ok (s1, commitSha) => .ok (s1, .bootstrapped newBranchName commitSha)
  else .error e

/-- `createBranch`: with a (truthy) base branch name, create the new ref at
the base's head; otherwise run the default-branch probe and fall into the
empty-repository bootstrap on a 404. -/
def createBranch (s : GitState) (newBranchName : String)
    (baseBranchName : Option String) (readmeContent : Option String) :
    Except GhErr (GitState × CreateBranchResult) :=
  let useBase : Bool :=
    match baseBranchName with
    | some b => b != ""
    | none => false
  if useBase then
    match baseBranchName with
    | some base =>
      match getRef s base with
      | none => .error (.http 404)
      | some fromCommitSha =>
        match createRef s newBranchName fromCommitSha with
        | .error e => .error e
        | .ok s1 => .ok (s1, .refCreated newBranchName fromCommitSha)
    | none => .error (.http 404)
  else
    match createBranchTry s newBranchName with
    | .ok r => .ok r
    | .error e => createBranchCatch s newBranchName readmeContent e

/-- `revertToVersion`: fetch `character.json` (mandatory) and `card.png`
(optional) as of the target commit, create fresh blobs from them, build a new
tree on the current head's tree replacing only those paths, create a commit
with the current head as single parent, and advance the branch ref. -/
def revertToVersion (s : GitState) (branch : String) (targetCommitSha : Nat) :
    Except GhErr (GitState × (String × Option String)) :=
  match getFileContent s (.commit targetCommitSha) "character.json" with
  | .error e => .error e
  | .ok none =>
    .error (.thrown ("无法在提交 " ++ toString targetCommitSha ++ " 中获取 character.json 的内容"))
  | .ok (some jsonFileData) =>
    let characterJsonContent := textOfBytes (base64Decode jsonFileData.1)
    match getFileContent s (.commit targetCommitSha) "card.png" with
    | .error e => .error e
    | .ok pngFileData =>
      let cardPngContent : Option String := pngFileData.map (·.1)
      match getRef s branch with
      | none => .error (.http 404)
      | some latestCommitSha =>
        match getCommit s latestCommitSha with
        | none => .error (.http 404)
        | some latestCommit =>
          let baseTreeSha := latestCommit.tree
          let (s1, jsonSha) := createBlob s characterJsonContent "utf-8"
          let withJson := [TreeEntry.mk "character.json" "100644" "blob" jsonSha]
          let afterBlobs :=
            match cardPngContent with
            | some png =>
              let (s2, pngSha) := createBlob s1 png "base64"
              (s2, withJson ++ [TreeEntry.mk "card.png" "100644" "blob" pngSha])
            | none => (s1, withJson)
          match createTree afterBlobs.1 baseTreeSha afterBlobs.2 with
          | .error e => .error e
          | .ok (s3, newTreeSha) =>
            let commitMessage := "回滚到版本 " ++ (toString targetCommitSha).take 7
            let (s4, newCommitSha) := createCommit s3 commitMessage newTreeSha [latestCommitSha]
            match updateRef s4 branch newCommitSha with
            | .error e => .error e
            | .ok s5 => .ok (s5, (characterJsonContent, cardPngContent))

/-- The `{path, mode: "100644", type: "blob", sha}` items `commitMultipleFiles`
assembles, spelled out against the allocation counter: the i-th file's blob
receives SHA `n + i`. -/
def treeItemsFor (n : Nat) : List FileSnap → List TreeEntry
  | [] => []
  | f :: rest => TreeEntry.mk f.path "100644" "blob" n :: treeItemsFor (n + 1) rest

/-- The entries of the tree of a commit, as observable in a state. -/
def commitTreeEntries (s : GitState) (c : Nat) : Option (List TreeEntry) :=
  (getCommit s c).bind (fun o => s.trees.lookup o.tree)

/-- Observation of the double-revert experiment: revert to `t`, then revert to
`h0`, and report the branch's tracked contents; `none` when either run
fails. -/
def doubleRevert (s : GitState) (br : String) (t h0 : Nat) :
    Option (Option Bytes × Option Bytes) :=
  match revertToVersion s br t with
  | .error _ => none
  | .ok (s1, _) =>
    match revertToVersion s1 br h0 with
    | .error _ => none
    | .ok (s2, _) =>
      some (branchFileBytes s2 br "character.json", branchFileBytes s2 br "card.png")

/-! ## Concrete repository states used by the witnesses and counterexamples -/

/-- A repository with no commits and no branches yet. -/
def emptyRepo : GitState :=
  { blobs := [], trees := [], commits := [], refs := [], defaultBranch := "main", nextSha := 0 }

/-- A one-commit repository tracking only `character.json` on `main`. -/
def demoRepo : GitState :=
  { blobs := [(0, ⟨"{}", "utf-8"⟩)]
    trees := [(1, [TreeEntry.mk "character.json" "100644" "blob" 0])]
    commits := [(2, CommitObj.mk "c0" 1 [])]
    refs := [("main", 2)]
    defaultBranch := "main"
    nextSha := 3 }

/-- A two-commit repository whose older commit `5` carries `card.png` while
the branch head `6` does not. -/
def demoPngAtTarget : GitState :=
  { blobs := [(0, ⟨"j0", "utf-8"⟩), (1, ⟨"QQ==", "base64"⟩), (2, ⟨"j1", "utf-8"⟩)]
    trees := [(3, [TreeEntry.mk "character.json" "100644" "blob" 0,
                   TreeEntry.mk "card.png" "100644" "blob" 1]),
              (4, [TreeEntry.mk "character.json" "100644" "blob" 2])]
    commits := [(5, CommitObj.mk "t" 3 []), (6, CommitObj.mk "h" 4 [5])]
    refs := [("main", 6)]
    defaultBranch := "main"
    nextSha := 7 }

/-- A two-commit repository carrying both tracked files at both commits. -/
def demoBothFiles : GitState :=
  { blobs := [(0, ⟨"{}", "utf-8"⟩), (1, ⟨"QQ==", "base64"⟩),
              (2, ⟨"[]", "utf-8"⟩), (3, ⟨"Qg==", "base64"⟩)]
    trees := [(4, [TreeEntry.mk "character.json" "100644" "blob" 0,
                   TreeEntry.mk "card.png" "100644" "blob" 1]),
              (5, [TreeEntry.mk "character.json" "100644" "blob" 2,
                   TreeEntry.mk "card.png" "100644" "blob" 3])]
    commits := [(6, CommitObj.mk "t" 4 []), (7, CommitObj.mk "h" 5 [6])]
    refs := [("main", 7)]
    defaultBranch := "main"
    nextSha := 8 }

/-- The state `revertToVersion demoRepo "main" 2` produces. -/
def demoReverted : GitState :=
  { blobs := [(3, BlobObj.mk "{}" "utf-8"), (0, BlobObj.mk "{}" "utf-8")]
    trees := [(4, [TreeEntry.mk "character.json" "100644" "blob" 3]),
              (1, [TreeEntry.mk "character.json" "100644" "blob" 0])]
    commits := [(5, CommitObj.mk "回滚到版本 2" 4 [2]), (2, CommitObj.mk "c0" 1 [])]
    refs := [("main", 5)]
    defaultBranch := "main"
    nextSha := 6 }

/-- The state bootstrapping the empty repository with seed content `"x"`
produces. -/
def demoBootstrapped : GitState :=
  { blobs := [(0, BlobObj.mk "eA==" "base64")]
    trees := [(1, [TreeEntry.mk "README.md" "100644" "blob" 0])]
    commits := [(2, CommitObj.mk "Initial commit" 1 [])]
    refs := [("main", 2)]
    defaultBranch := "main"
    nextSha := 3 }
theorem b64Val_lt (c : Char) : b64Val c < 64 := by
  unfold b64Val
  rcases h : "ABCDEFGHIJKLMNOPQRSTUVWXYZabcdefghijklmnopqrstuvwxyz0123456789+/".data.indexOf? c with
    _ | i <;> simp [h] <;> omega

theorem b64Val_b64Char {n : Nat} (h : n < 64) : b64Val (b64Char n) = n := by
  interval_cases n <;> rfl

theorem b64Char_ne_eq {n : Nat} (h : n < 64) : b64Char n ≠ '=' := by
  interval_cases n <;> decide

/-- Round trip: decoding a base64 encoding recovers the original bytes. -/
theorem base64_roundtrip (b : Bytes) (hb : ∀ x ∈ b, x < 256) :
    base64Decode (base64Encode b) = b := by
  unfold base64Decode base64Encode
  show b64DecCore (((b64EncCore b).filter (· ≠ '=')).map b64Val) = b
  induction b using b64EncCore.induct with
  | case1 => rfl
  | case2 a =>
    have ha : a < 256 := hb a (by simp)
    have h1 : a / 4 < 64 := by omega
    have h2 : a % 4 * 16 < 64 := by omega
    rw [show (b64EncCore [a]).filter (· ≠ '=') = [b64Char (a / 4), b64Char (a % 4 * 16)] by
      simp [b64EncCore, List.filter, b64Char_ne_eq h1, b64Char_ne_eq h2]]
    simp only [List.map_cons, List.map_nil, b64Val_b64Char h1, b64Val_b64Char h2, b64DecCore,
      List.cons.injEq, and_true]
    omega
  | case3 a b =>
    have ha : a < 256 := hb a (by simp)
    have hbb : b < 256 := hb b (by simp)
    have h1 : a / 4 < 64 := by omega
    have h2 : a % 4 * 16 + b / 16 < 64 := by omega
    have h3 : b % 16 * 4 < 64 := by omega
    rw [show (b64EncCore [a, b]).filter (· ≠ '=') =
        [b64Char (a / 4), b64Char (a % 4 * 16 + b / 16), b64Char (b % 16 * 4)] by
      simp [b64EncCore, List.filter, b64Char_ne_eq h1, b64Char_ne_eq h2, b64Char_ne_eq h3]]
    simp only [List.map_cons, List.map_nil, b64Val_b64Char h1, b64Val_b64Char h2,
      b64Val_b64Char h3, b64DecCore, List.cons.injEq, and_true]
    refine ⟨by omega, by omega⟩
  | case4 a b c rest ih =>
    have ha : a < 256 := hb a (by simp)
    have hbb : b < 256 := hb b (by simp)
    have hc : c < 256 := hb c (by simp)
    have h1 : a / 4 < 64 := by omega
    have h2 : a % 4 * 16 + b / 16 < 64 := by omega
    have h3 : b % 16 * 4 + c / 64 < 64 := by omega
    have h4 : c % 64 < 64 := by omega
    have ihr := ih (fun x hx => hb x (by simp [hx]))
    rw [show (b64EncCore (a :: b :: c :: rest)).filter (· ≠ '=') =
        b64Char (a / 4) :: b64Char (a % 4 * 16 + b / 16) :: b64Char (b % 16 * 4 + c / 64) ::
          b64Char (c % 64) :: (b64EncCore rest).filter (· ≠ '=') by
      simp [b64EncCore, List.filter_cons, b64Char_ne_eq h1, b64Char_ne_eq h2, b64Char_ne_eq h3,
        b64Char_ne_eq h4]]
    simp only [List.map_cons, b64Val_b64Char h1, b64Val_b64Char h2,
      b64Val_b64Char h3, b64Val_b64Char h4, b64DecCore, List.cons.injEq]
    refine ⟨by omega, by omega, by omega, ihr⟩

theorem b64DecCore_lt_256 (l : List Nat) (hl : ∀ x ∈ l, x < 64) :
    ∀ x ∈ b64DecCore l, x < 256 := by
  induction l using b64DecCore.induct with
  | case1 a b c d rest ih =>
    have ha := hl a (by simp); have hb := hl b (by simp)
    have hc := hl c (by simp); have hd := hl d (by simp)
    intro x hx
    simp only [b64DecCore, List.mem_cons] at hx
    rcases hx with h | h | h | h
    · omega
    · omega
    · omega
    · exact ih (fun y hy => hl y (by simp [hy])) x h
  | case2 a b =>
    have ha := hl a (by simp); have hb := hl b (by simp)
    intro x hx
    simp only [b64DecCore, List.mem_cons, List.not_mem_nil, or_false] at hx
    omega
  | case3 a b c =>
    have ha := hl a (by simp); have hb := hl b (by simp); have hc := hl c (by simp)
    intro x hx
    simp only [b64DecCore, List.mem_cons, List.not_mem_nil, or_false] at hx
    rcases hx with h | h <;> omega
  | case4 l h1 h2 h3 =>
    intro x hx
    rw [b64DecCore] at hx
    · simp at hx
    · exact h1
    · exact h2
    · exact h3

/-- Every byte produced by the base64 decoder is an actual byte. -/
theorem base64Decode_lt_256 (s : String) : ∀ x ∈ base64Decode s, x < 256 := by
  unfold base64Decode
  refine b64DecCore_lt_256 _ ?_
  intro x hx
  rcases List.mem_map.1 hx with ⟨c, _, rfl⟩
  exact b64Val_lt c

theorem toNat_ofNat_byte {b : Nat} (h : b < 256) : (Char.ofNat b).toNat = b := by
  have hv : b.isValidChar := Or.inl (by omega)
  simp [Char.ofNat, Char.toNat, hv, Char.ofNatAux, UInt32.toNat]

/-- Decoding the transfer bytes of a string recovers the string. -/
theorem textOfBytes_textBytes (s : String) : textOfBytes (textBytes s) = s := by
  unfold textOfBytes textBytes
  rw [List.map_map]
  have : (Char.ofNat ∘ Char.toNat) = id := funext fun c => Char.ofNat_toNat c
  rw [this, List.map_id]

/-- Re-encoding the decoded text of a byte sequence recovers the bytes, as long
as they are actual bytes. -/
theorem textBytes_textOfBytes (b : Bytes) (hb : ∀ x ∈ b, x < 256) :
    textBytes (textOfBytes b) = b := by
  unfold textOfBytes textBytes
  rw [List.map_map]
  induction b with
  | nil => rfl
  | cons x t ih =>
    simp only [List.map_cons, Function.comp_apply, toNat_ofNat_byte (hb x (by simp))]
    rw [ih (fun y hy => hb y (by simp [hy]))]

/-- The bytes of a byte-valued string are bytes. -/
theorem textBytes_lt_256 {s : String} (h : ByteText s) : ∀ x ∈ textBytes s, x < 256 := by
  intro x hx
  rcases List.mem_map.1 hx with ⟨c, hc, rfl⟩
  exact h c hc

/-! ## Lemmas about the repository locator -/

theorem splitOnSlash_ne_nil (l : List Char) : splitOnSlash l ≠ [] := by
  induction l using splitOnSlash.induct with
  | case1 => simp [splitOnSlash]
  | case2 t ih => simp [splitOnSlash]
  | case3 c t hc x xs hxt ih =>
    rw [splitOnSlash]
    · rw [hxt]
      simp
    · exact hc
  | case4 c t hc hnil ih => exact absurd hnil ih

theorem joinSlash_splitOnSlash (l : List Char) : joinSlash (splitOnSlash l) = l := by
  induction l using splitOnSlash.induct with
  | case1 => rfl
  | case2 t ih =>
    rw [splitOnSlash]
    rcases h : splitOnSlash t with _ | ⟨x, xs⟩
    · exact absurd h (splitOnSlash_ne_nil t)
    · rw [h] at ih
      rw [joinSlash]
      · simpa using ih
      · simp
  | case3 c t hc x xs hxt ih =>
    rw [splitOnSlash]
    · rw [hxt] at ih ⊢
      rcases xs with _ | ⟨y, ys⟩
      · simpa [joinSlash] using ih
      · rw [joinSlash] at ih ⊢
        · simpa using ih
        · simp
        · simp
    · exact hc
  | case4 c t hc hnil ih => exact absurd hnil (splitOnSlash_ne_nil t)

theorem slash_mem_iff_two_le (l : List Char) : '/' ∈ l ↔ 2 ≤ (splitOnSlash l).length := by
  induction l using splitOnSlash.induct with
  | case1 => simp [splitOnSlash]
  | case2 t ih =>
    have h0 : 0 < (splitOnSlash t).length := List.length_pos.2 (splitOnSlash_ne_nil t)
    simp [splitOnSlash]
    omega
  | case3 c t hc x xs hxt ih =>
    rw [splitOnSlash]
    · rw [hxt] at ih ⊢
      simp only [List.mem_cons, List.length_cons] at ih ⊢
      constructor
      · intro hm
        rcases hm with hm | hm
        · exact absurd hm.symm hc
        · exact ih.1 hm
      · intro hlen
        right
        exact ih.2 hlen
    · exact hc
  | case4 c t hc hnil ih => exact absurd hnil (splitOnSlash_ne_nil t)

theorem string_append_data (a b : String) : (a ++ b).data = a.data ++ b.data := rfl

theorem dropGitSuffix_append (l : List Char) : dropGitSuffix (l ++ gitSuffix) = l := by
  have hlen : (l ++ gitSuffix).length = l.length + 4 := by simp [gitSuffix]
  have harith : l.length + 4 - 4 = l.length := by omega
  have hdrop : (l ++ gitSuffix).drop ((l ++ gitSuffix).length - 4) = gitSuffix := by
    rw [hlen, harith]
    exact List.drop_left l gitSuffix
  have htake : (l ++ gitSuffix).take ((l ++ gitSuffix).length - 4) = l := by
    rw [hlen, harith]
    exact List.take_left l gitSuffix
  have hends : endsGit (l ++ gitSuffix) = true := by
    simp only [endsGit, Bool.and_eq_true, decide_eq_true_eq]
    exact ⟨by omega, hdrop⟩
  rw [dropGitSuffix, if_pos hends, htake]

theorem endsGit_cons {t : List Char} (c : Char) (h : endsGit t = true) :
    endsGit (c :: t) = true := by
  simp only [endsGit, Bool.and_eq_true, decide_eq_true_eq] at h ⊢
  obtain ⟨h4, hdrop⟩ := h
  refine ⟨by simp; omega, ?_⟩
  have harith : (c :: t).length - 4 = (t.length - 4) + 1 := by simp; omega
  rw [harith, List.drop_succ_cons]
  exact hdrop

theorem endsGit_tail {c : Char} {t : List Char} (h : endsGit (c :: t) = false) :
    endsGit t = false := by
  cases hv : endsGit t with
  | false => rfl
  | true => rw [endsGit_cons c hv] at h; exact absurd h (by simp)

theorem stripSlashGit_append_git (p : List Char) (h : endsGit p = false) :
    stripSlashGit (p ++ gitSuffix) = stripSlashGit p := by
  unfold stripSlashGit stripLead
  rcases p with _ | ⟨c, t⟩
  · simp [gitSuffix, dropGitSuffix, endsGit]
  · by_cases hc : c = '/'
    · subst hc
      simp only [List.cons_append, List.head?_cons, eq_self_iff_true, if_true, List.tail_cons]
      rw [dropGitSuffix_append, dropGitSuffix, if_neg (by simp [endsGit_tail h])]
    · have hne : ¬ (((c :: t) ++ gitSuffix).head? = some '/') := by simp [hc]
      have hne2 : ¬ ((c :: t).head? = some '/') := by simp [hc]
      rw [if_neg hne, if_neg hne2, dropGitSuffix_append, dropGitSuffix, if_neg (by simp [h])]

/-! ## Claim C5 -/

/-- C5 fails on the code: `parseRepoUrl` counts empty path segments, so the
URL `https://github.com/user/.git` (pathname `"/user/.git"`), which has only
one non-empty segment after stripping the leading slash and the trailing
`".git"`, nevertheless parses successfully — and the returned `RepositoryRef`
has an empty repository name. -/
theorem qiros_C5_counterexample :
    parseRepoUrl (some "/user/.git") = .ok ⟨"user", ""⟩ ∧
    ((splitOnSlash (stripSlashGit "/user/.git".data)).filter
      (fun seg => !seg.isEmpty)).length = 1 := by
  constructor
  · rfl
  · rfl

/-- C5 (amended): `parseRepoUrl` fails with the invalid-address error exactly
when the URL cannot be parsed or when the normalized pathname splits into
fewer than two segments counting empty segments (equivalently: contains no
`'/'`); on success the returned owner and name are the first two
slash-separated segments of the normalized pathname, either of which may be
empty. -/
theorem qiros_C5 :
    parseRepoUrl none = .error .invalidRepositoryAddress ∧
    (∀ p : String, parseRepoUrl (some p) = .error .invalidRepositoryAddress ↔
      '/' ∉ stripSlashGit p.data) ∧
    (∀ p r, parseRepoUrl (some p) = .ok r →
      ∃ rest, stripSlashGit p.data = r.owner.data ++ '/' :: (r.repo.data ++ rest) ∧
        (rest = [] ∨ ∃ more, rest = '/' :: more)) := by
  refine ⟨rfl, ?_, ?_⟩
  · intro p
    rw [parseRepoUrl]
    rcases h : splitOnSlash (stripSlashGit p.data) with _ | ⟨a, _ | ⟨b, rest⟩⟩
    · exact absurd h (splitOnSlash_ne_nil _)
    · simp only [slash_mem_iff_two_le, h, List.length_cons, List.length_nil]
      constructor
      · intro _
        omega
      · intro _
        trivial
    · simp only [slash_mem_iff_two_le, h, List.length_cons]
      constructor
      · intro hcontra
        exact Except.noConfusion hcontra
      · intro hcontra
        exact absurd (by omega) hcontra
  · intro p r hok
    rcases h : splitOnSlash (stripSlashGit p.data) with _ | ⟨a, _ | ⟨b, rest⟩⟩
    · exact absurd h (splitOnSlash_ne_nil _)
    · rw [parseRepoUrl, h] at hok
      exact Except.noConfusion hok
    · rw [parseRepoUrl, h] at hok
      have hr : r = ⟨⟨a⟩, ⟨b⟩⟩ := by
        cases hok
        rfl
      subst hr
      have hj := joinSlash_splitOnSlash (stripSlashGit p.data)
      rw [h] at hj
      rcases rest with _ | ⟨x, xs⟩
      · refine ⟨[], ?_, Or.inl rfl⟩
        rw [joinSlash] at hj
        · simpa using hj.symm
        · simp
      · refine ⟨'/' :: joinSlash (x :: xs), ?_, Or.inr ⟨_, rfl⟩⟩
        rw [joinSlash] at hj
        · rw [joinSlash] at hj
          · simpa using hj.symm
          · simp
        · simp

/-- Witness for the amended C5: a concrete successful parse decomposed into
its two segments. -/
theorem qiros_C5_witness :
    ∃ rest, stripSlashGit "/user/repo.git".data =
      ("user" : String).data ++ '/' :: (("repo" : String).data ++ rest) ∧
      (rest = [] ∨ ∃ more, rest = '/' :: more) :=
  qiros_C5.2.2 "/user/repo.git" ⟨"user", "repo"⟩ (by rfl)

/-! ## Claim C8 -/

/-- C8: for a URL whose pathname does not already end in `".git"`, appending
the `".git"` version-control suffix does not change the parse result. -/
theorem qiros_C8 (p : String) (h : endsGit p.data = false) :
    parseRepoUrl (some (p ++ ".git")) = parseRepoUrl (some p) := by
  have hdata : (p ++ ".git").data = p.data ++ gitSuffix := rfl
  simp only [parseRepoUrl, hdata, stripSlashGit_append_git p.data h]

/-- Witness for C8 at the concrete repository URL pathname `/user/repo`. -/
theorem qiros_C8_witness :
    parseRepoUrl (some ("/user/repo" ++ ".git")) = parseRepoUrl (some "/user/repo") :=
  qiros_C8 "/user/repo" (by rfl)

/-! ## Association-list and primitive-transition lemmas -/

theorem lookup_cons_self {κ β : Type} [BEq κ] [LawfulBEq κ] (l : List (κ × β)) (k : κ) (v : β) :
    ((k, v) :: l).lookup k = some v := by
  simp [List.lookup]

theorem lookup_cons_ne {β : Type} (l : List (Nat × β)) {k k' : Nat} (v : β) (h : k' ≠ k) :
    ((k, v) :: l).lookup k' = l.lookup k' := by
  have hb : (k' == k) = false := by simp [h]
  simp [List.lookup, hb]

theorem lookup_setAssoc_self (refs : List (String × Nat)) (b : String) (sha v : Nat)
    (h : refs.lookup b = some v) : (setAssoc refs b sha).lookup b = some sha := by
  induction refs with
  | nil => simp [List.lookup] at h
  | cons p t ih =>
    obtain ⟨k, v0⟩ := p
    by_cases hk : k = b
    · subst hk
      rw [setAssoc, if_pos rfl]
      simp [List.lookup]
    · rw [setAssoc, if_neg hk]
      rw [List.lookup] at h ⊢
      have : (b == k) = false := by simp [Ne.symm hk]
      rw [this] at h ⊢
      exact ih h

theorem updateRef_ok {s : GitState} {b : String} {sha : Nat} {s' : GitState}
    (h : updateRef s b sha = .ok s') :
    s'.blobs = s.blobs ∧ s'.trees = s.trees ∧ s'.commits = s.commits ∧
    s'.nextSha = s.nextSha ∧ s'.defaultBranch = s.defaultBranch ∧
    getRef s' b = some sha := by
  rw [updateRef] at h
  rcases hv : s.refs.lookup b with _ | v
  · rw [hv] at h
    exact Except.noConfusion h
  · rw [hv] at h
    cases h
    refine ⟨rfl, rfl, rfl, rfl, rfl, ?_⟩
    exact lookup_setAssoc_self s.refs b sha v hv

/-! ## Claim C6 -/

/-- C6: `syncFile` reads the file's SHA first; a not-found read makes the
write omit the SHA (creating the file), a successful read's SHA is supplied
to the create-or-update write verbatim, and the catch around the read
rethrows every error that is not a 404. -/
theorem qiros_C6 :
    (∀ (s : GitState) (branch filePath : String) (content : JSContent) (msg : String),
      getContentApi s (.branch branch) filePath = .error (.http 404) →
      syncFile s branch filePath content msg =
        createOrUpdateFileContents s filePath msg (jsToBase64 content) branch none) ∧
    (∀ (s : GitState) (branch filePath : String) (content : JSContent) (msg : String)
      (bsha : Nat) (b64 : String),
      getContentApi s (.branch branch) filePath = .ok (b64, bsha) →
      syncFile s branch filePath content msg =
        createOrUpdateFileContents s filePath msg (jsToBase64 content) branch (some bsha)) ∧
    (∀ e : GhErr, e.is404 = false → syncFileShaRead (.error e) = .error e) := by
  refine ⟨?_, ?_, ?_⟩
  · intro s branch filePath content msg h
    rw [syncFile, h]
    rfl
  · intro s branch filePath content msg bsha b64 h
    rw [syncFile, h]
    rfl
  · intro e he
    rw [syncFileShaRead, he]
    rfl

/-- Witness for C6: on the demo repository, a read of the absent `card.png`
404s and the write omits the SHA; a read of the present `character.json`
yields blob SHA 0 which the write supplies; a plain thrown error is
rethrown by the read stage. -/
theorem qiros_C6_witness :
    (syncFile demoRepo "main" "card.png" (.str "x") "m" =
      createOrUpdateFileContents demoRepo "card.png" "m" (jsToBase64 (.str "x")) "main" none) ∧
    (syncFile demoRepo "main" "character.json" (.str "[]") "m" =
      createOrUpdateFileContents demoRepo "character.json" "m" (jsToBase64 (.str "[]"))
        "main" (some 0)) ∧
    syncFileShaRead (.error (.thrown "boom")) = .error (.thrown "boom") :=
  ⟨qiros_C6.1 demoRepo "main" "card.png" (.str "x") "m" (by rfl),
   qiros_C6.2.1 demoRepo "main" "character.json" (.str "[]") "m" 0 "e30=" (by rfl),
   qiros_C6.2.2 (.thrown "boom") (by rfl)⟩

/-! ## Claim C9, counterexample part -/

/-- C9 fails on the code: the revert commit message is the Chinese label
`"回滚到版本 <short-sha>"`, not the literal `"revert to version <short-sha>"`,
and the bootstrap commit message is `"Initial commit"` with a capital I, not
`"initial commit"`. -/
theorem qiros_C9_counterexample :
    (((revertToVersion demoRepo "main" 2).toOption.bind
        (fun r => (getRef r.1 "main").bind (getCommit r.1))).map CommitObj.message
      = some "回滚到版本 2") ∧
    ("回滚到版本 2" ≠ "revert to version 2") ∧
    (((createBranch emptyRepo "main" none none).toOption.bind
        (fun r => (getRef r.1 "main").bind (getCommit r.1))).map CommitObj.message
      = some "Initial commit") ∧
    ("Initial commit" ≠ "initial commit") := by
  refine ⟨by rfl, by decide, by rfl, by decide⟩

theorem lookup_eq_some_mem {κ β : Type} [BEq κ] [LawfulBEq κ] {l : List (κ × β)} {k : κ}
    {v : β} (h : l.lookup k = some v) : (k, v) ∈ l := by
  induction l with
  | nil => simp [List.lookup] at h
  | cons p t ih =>
    obtain ⟨k0, v0⟩ := p
    rw [List.lookup] at h
    rcases hb : k == k0 with _ | _
    · rw [hb] at h
      exact List.mem_cons_of_mem _ (ih h)
    · rw [hb] at h
      cases h
      have : k = k0 := eq_of_beq hb
      subst this
      exact List.mem_cons_self _ _

theorem lookup_append_lt {β : Type} (d old : List (Nat × β)) {k bound : Nat}
    (hk : k < bound) (hd : ∀ p ∈ d, bound ≤ p.1) :
    (d ++ old).lookup k = old.lookup k := by
  induction d with
  | nil => rfl
  | cons p t ih =>
    obtain ⟨k0, v0⟩ := p
    have hk0 : bound ≤ k0 := hd (k0, v0) (by simp)
    rw [List.cons_append, lookup_cons_ne _ _ (by omega)]
    exact ih (fun q hq => hd q (by simp [hq]))

theorem stepExt_refl (s : GitState) : StepExt s s :=
  ⟨le_refl _, ⟨[], rfl, by simp⟩, ⟨[], rfl, by simp⟩, ⟨[], rfl, by simp⟩⟩

theorem stepExt_trans {s1 s2 s3 : GitState} (h12 : StepExt s1 s2) (h23 : StepExt s2 s3) :
    StepExt s1 s3 := by
  obtain ⟨hn12, ⟨b12, hb12, hb12'⟩, ⟨t12, ht12, ht12'⟩, ⟨c12, hc12, hc12'⟩⟩ := h12
  obtain ⟨hn23, ⟨b23, hb23, hb23'⟩, ⟨t23, ht23, ht23'⟩, ⟨c23, hc23, hc23'⟩⟩ := h23
  refine ⟨le_trans hn12 hn23, ⟨b23 ++ b12, ?_, ?_⟩, ⟨t23 ++ t12, ?_, ?_⟩, ⟨c23 ++ c12, ?_, ?_⟩⟩
  · rw [hb23, hb12, List.append_assoc]
  · intro p hp
    rcases List.mem_append.1 hp with hp | hp
    · exact le_trans hn12 (hb23' p hp)
    · exact hb12' p hp
  · rw [ht23, ht12, List.append_assoc]
  · intro p hp
    rcases List.mem_append.1 hp with hp | hp
    · exact le_trans hn12 (ht23' p hp)
    · exact ht12' p hp
  · rw [hc23, hc12, List.append_assoc]
  · intro p hp
    rcases List.mem_append.1 hp with hp | hp
    · exact le_trans hn12 (hc23' p hp)
    · exact hc12' p hp

theorem blobs_stable {s s' : GitState} (h : StepExt s s') {k : Nat} (hk : k < s.nextSha) :
    s'.blobs.lookup k = s.blobs.lookup k := by
  obtain ⟨-, ⟨d, hd, hd'⟩, -, -⟩ := h
  rw [hd]
  exact lookup_append_lt d s.blobs hk hd'

theorem trees_stable {s s' : GitState} (h : StepExt s s') {k : Nat} (hk : k < s.nextSha) :
    s'.trees.lookup k = s.trees.lookup k := by
  obtain ⟨-, -, ⟨d, hd, hd'⟩, -⟩ := h
  rw [hd]
  exact lookup_append_lt d s.trees hk hd'

theorem commits_stable {s s' : GitState} (h : StepExt s s') {k : Nat} (hk : k < s.nextSha) :
    s'.commits.lookup k = s.commits.lookup k := by
  obtain ⟨-, -, -, ⟨d, hd, hd'⟩⟩ := h
  rw [hd]
  exact lookup_append_lt d s.commits hk hd'

theorem stepExt_createBlob (s : GitState) (c e : String) :
    StepExt s (createBlob s c e).1 :=
  ⟨by simp [createBlob], ⟨[(s.nextSha, ⟨c, e⟩)], rfl, by simp⟩,
    ⟨[], rfl, by simp⟩, ⟨[], rfl, by simp⟩⟩

theorem stepExt_createTreeRoot (s : GitState) (items : List TreeEntry) :
    StepExt s (createTreeRoot s items).1 :=
  ⟨by simp [createTreeRoot], ⟨[], rfl, by simp⟩,
    ⟨[(s.nextSha, items)], rfl, by simp⟩, ⟨[], rfl, by simp⟩⟩

theorem stepExt_createCommit (s : GitState) (m : String) (t : Nat) (ps : List Nat) :
    StepExt s (createCommit s m t ps).1 :=
  ⟨by simp [createCommit], ⟨[], rfl, by simp⟩, ⟨[], rfl, by simp⟩,
    ⟨[(s.nextSha, CommitObj.mk m t ps)], rfl, by simp⟩⟩

theorem createTree_ok {s : GitState} {b : Nat} {items : List TreeEntry}
    {s' : GitState} {t : Nat} (h : createTree s b items = .ok (s', t)) :
    ∃ base, s.trees.lookup b = some base ∧ t = s.nextSha ∧
      s' = { s with
        trees := (s.nextSha,
          items ++ base.filter (fun e => items.all (fun i => ¬ i.path = e.path))) :: s.trees
        nextSha := s.nextSha + 1 } := by
  rw [createTree] at h
  rcases hb : s.trees.lookup b with _ | base
  · rw [hb] at h
    exact Except.noConfusion h
  · rw [hb] at h
    cases h
    exact ⟨base, rfl, rfl, rfl⟩

theorem stepExt_createTree {s : GitState} {b : Nat} {items : List TreeEntry}
    {s' : GitState} {t : Nat} (h : createTree s b items = .ok (s', t)) :
    StepExt s s' := by
  obtain ⟨base, -, -, rfl⟩ := createTree_ok h
  exact ⟨by simp, ⟨[], rfl, by simp⟩, ⟨[(s.nextSha, _)], rfl, by simp⟩, ⟨[], rfl, by simp⟩⟩

theorem stepExt_updateRef {s : GitState} {b : String} {sha : Nat} {s' : GitState}
    (h : updateRef s b sha = .ok s') : StepExt s s' := by
  obtain ⟨hb, ht, hc, hn, -, -⟩ := updateRef_ok h
  exact ⟨le_of_eq hn.symm, ⟨[], hb, by simp⟩, ⟨[], ht, by simp⟩, ⟨[], hc, by simp⟩⟩

theorem createRef_ok {s : GitState} {b : String} {sha : Nat} {s' : GitState}
    (h : createRef s b sha = .ok s') :
    s.refs.lookup b = none ∧ s' = { s with refs := (b, sha) :: s.refs } := by
  rw [createRef] at h
  rcases hb : s.refs.lookup b with _ | v
  · rw [hb] at h
    cases h
    exact ⟨rfl, rfl⟩
  · rw [hb] at h
    exact Except.noConfusion h

theorem stepExt_createRef {s : GitState} {b : String} {sha : Nat} {s' : GitState}
    (h : createRef s b sha = .ok s') : StepExt s s' := by
  obtain ⟨-, rfl⟩ := createRef_ok h
  exact ⟨le_refl _, ⟨[], rfl, by simp⟩, ⟨[], rfl, by simp⟩, ⟨[], rfl, by simp⟩⟩

theorem wf_createBlob {s : GitState} (hw : WfState s) (c e : String) :
    WfState (createBlob s c e).1 := by
  obtain ⟨hb, ht, hc, hr⟩ := hw
  dsimp only [WfState, createBlob]
  refine ⟨?_, ?_, ?_, ?_⟩
  · intro p hp
    rcases List.mem_cons.1 hp with rfl | hp
    · simp
    · have := hb p hp
      omega
  · intro p hp
    have := ht p hp
    exact ⟨by omega, fun e he => by have := this.2 e he; omega⟩
  · intro p hp
    have := hc p hp
    exact ⟨by omega, by omega, fun q hq => by have := this.2.2 q hq; omega⟩
  · intro p hp
    have := hr p hp
    omega

theorem wf_createTreeRoot {s : GitState} (hw : WfState s) {items : List TreeEntry}
    (hi : ∀ x ∈ items, x.sha < s.nextSha) :
    WfState (createTreeRoot s items).1 := by
  obtain ⟨hb, ht, hc, hr⟩ := hw
  dsimp only [WfState, createTreeRoot]
  refine ⟨?_, ?_, ?_, ?_⟩
  · intro p hp
    have := hb p hp
    omega
  · intro p hp
    rcases List.mem_cons.1 hp with rfl | hp
    · exact ⟨by omega, fun e he => by have := hi e he; omega⟩
    · have := ht p hp
      exact ⟨by omega, fun e he => by have := this.2 e he; omega⟩
  · intro p hp
    have := hc p hp
    exact ⟨by omega, by omega, fun q hq => by have := this.2.2 q hq; omega⟩
  · intro p hp
    have := hr p hp
    omega

theorem wf_createTree {s : GitState} {b : Nat} {items : List TreeEntry}
    {s' : GitState} {t : Nat} (hw : WfState s) (hi : ∀ x ∈ items, x.sha < s.nextSha)
    (h : createTree s b items = .ok (s', t)) : WfState s' := by
  obtain ⟨base, hbase, -, rfl⟩ := createTree_ok h
  obtain ⟨hb, ht, hc, hr⟩ := hw
  have hbm := ht _ (lookup_eq_some_mem hbase)
  dsimp only [WfState]
  refine ⟨?_, ?_, ?_, ?_⟩
  · intro p hp
    have := hb p hp
    omega
  · intro p hp
    rcases List.mem_cons.1 hp with rfl | hp
    · refine ⟨by omega, ?_⟩
      intro e he
      rcases List.mem_append.1 he with he | he
      · have := hi e he
        omega
      · have := hbm.2 e (List.mem_of_mem_filter he)
        omega
    · have := ht p hp
      exact ⟨by omega, fun e he => by have := this.2 e he; omega⟩
  · intro p hp
    have := hc p hp
    exact ⟨by omega, by omega, fun q hq => by have := this.2.2 q hq; omega⟩
  · intro p hp
    have := hr p hp
    omega

theorem wf_createCommit {s : GitState} (hw : WfState s) {m : String} {t : Nat}
    {ps : List Nat} (ht0 : t < s.nextSha) (hp0 : ∀ q ∈ ps, q < s.nextSha) :
    WfState (createCommit s m t ps).1 := by
  obtain ⟨hb, ht, hc, hr⟩ := hw
  dsimp only [WfState, createCommit]
  refine ⟨?_, ?_, ?_, ?_⟩
  · intro p hp
    have := hb p hp
    omega
  · intro p hp
    have := ht p hp
    exact ⟨by omega, fun e he => by have := this.2 e he; omega⟩
  · intro p hp
    rcases List.mem_cons.1 hp with rfl | hp
    · refine ⟨by omega, ?_, ?_⟩
      · dsimp only
        omega
      · intro q hq
        dsimp only at hq
        have := hp0 q hq
        omega
    · have := hc p hp
      exact ⟨by omega, by omega, fun q hq => by have := this.2.2 q hq; omega⟩
  · intro p hp
    have := hr p hp
    omega

theorem mem_setAssoc {refs : List (String × Nat)} {b : String} {sha : Nat} {p : String × Nat}
    (h : p ∈ setAssoc refs b sha) : p = (b, sha) ∨ p ∈ refs := by
  induction refs with
  | nil => simp [setAssoc] at h
  | cons q t ih =>
    obtain ⟨k, v⟩ := q
    rw [setAssoc] at h
    by_cases hk : k = b
    · rw [if_pos hk] at h
      rcases List.mem_cons.1 h with rfl | h
      · exact Or.inl rfl
      · exact Or.inr (List.mem_cons_of_mem _ h)
    · rw [if_neg hk] at h
      rcases List.mem_cons.1 h with rfl | h
      · exact Or.inr (List.mem_cons_self _ _)
      · rcases ih h with h | h
        · exact Or.inl h
        · exact Or.inr (List.mem_cons_of_mem _ h)

theorem wf_updateRef {s : GitState} {b : String} {sha : Nat} {s' : GitState}
    (hw : WfState s) (hsha : sha < s.nextSha) (h : updateRef s b sha = .ok s') :
    WfState s' := by
  obtain ⟨hb, ht, hc, hr⟩ := hw
  rw [updateRef] at h
  rcases hv : s.refs.lookup b with _ | v
  · rw [hv] at h
    exact Except.noConfusion h
  · rw [hv] at h
    cases h
    dsimp only [WfState]
    refine ⟨hb, ht, hc, ?_⟩
    intro p hp
    rcases mem_setAssoc hp with rfl | hp
    · exact hsha
    · exact hr p hp

theorem wf_createRef {s : GitState} {b : String} {sha : Nat} {s' : GitState}
    (hw : WfState s) (hsha : sha < s.nextSha) (h : createRef s b sha = .ok s') :
    WfState s' := by
  obtain ⟨-, rfl⟩ := createRef_ok h
  obtain ⟨hb, ht, hc, hr⟩ := hw
  dsimp only [WfState]
  refine ⟨hb, ht, hc, ?_⟩
  intro p hp
  rcases List.mem_cons.1 hp with rfl | hp
  · exact hsha
  · exact hr p hp

theorem fileShaAtCommit_lt {s : GitState} (hw : WfState s) {c : Nat} {p : String}
    {bsha : Nat} (h : fileShaAtCommit s c p = some bsha) : bsha < s.nextSha := by
  rw [fileShaAtCommit, getCommit] at h
  rcases hco : s.commits.lookup c with _ | obj
  · rw [hco] at h
    exact Option.noConfusion h
  · simp only [hco] at h
    rcases hes : s.trees.lookup obj.tree with _ | es
    · rw [hes] at h
      exact Option.noConfusion h
    · simp only [hes] at h
      rcases hen : entryLookup es p with _ | en
      · rw [hen] at h
        exact Option.noConfusion h
      · simp only [hen, Option.map_some] at h
        cases h
        have hesm := hw.2.1 _ (lookup_eq_some_mem hes)
        exact hesm.2 en (List.mem_of_find?_eq_some hen)

theorem fileShaAtCommit_stable {s s' : GitState} (hw : WfState s) (he : StepExt s s')
    {c : Nat} (hc : c < s.nextSha) (p : String) :
    fileShaAtCommit s' c p = fileShaAtCommit s c p := by
  rw [fileShaAtCommit, fileShaAtCommit, getCommit, getCommit, commits_stable he hc]
  rcases hco : s.commits.lookup c with _ | obj
  · simp [hco]
  · have htree := (hw.2.2.1 _ (lookup_eq_some_mem hco)).2.1
    simp only [hco]
    rw [trees_stable he htree]

/-- Observations of an already-allocated commit do not change when fresh
objects are added. -/
theorem fileBytesAtCommit_stable {s s' : GitState} (hw : WfState s) (he : StepExt s s')
    {c : Nat} (hc : c < s.nextSha) (p : String) :
    fileBytesAtCommit s' c p = fileBytesAtCommit s c p := by
  rw [fileBytesAtCommit, fileBytesAtCommit, fileBlobAtCommit, fileBlobAtCommit,
    fileShaAtCommit_stable hw he hc p]
  rcases hbs : fileShaAtCommit s c p with _ | bsha
  · simp [hbs]
  · simp only [hbs]
    rw [blobs_stable he (fileShaAtCommit_lt hw hbs)]

/-! ## The blob-creation loop of the commit engine -/

theorem createBlobs_cons (s : GitState) (f : FileSnap) (rest : List FileSnap) :
    createBlobs s (f :: rest) =
      ((createBlobs (createBlob s (encodeSnap f.content).content
          (encodeSnap f.content).encoding).1 rest).1,
        TreeEntry.mk f.path "100644" "blob" s.nextSha ::
          (createBlobs (createBlob s (encodeSnap f.content).content
            (encodeSnap f.content).encoding).1 rest).2) := rfl

theorem createBlobsStates_cons (s : GitState) (f : FileSnap) (rest : List FileSnap) :
    createBlobsStates s (f :: rest) =
      (createBlob s (encodeSnap f.content).content (encodeSnap f.content).encoding).1 ::
        createBlobsStates (createBlob s (encodeSnap f.content).content
          (encodeSnap f.content).encoding).1 rest := rfl

theorem createBlob_fst (s : GitState) (c e : String) :
    (createBlob s c e).1 =
      { s with blobs := (s.nextSha, ⟨c, e⟩) :: s.blobs, nextSha := s.nextSha + 1 } := rfl

theorem treeItemsFor_all_path (n : Nat) (files : List FileSnap) (e : TreeEntry) :
    (treeItemsFor n files).all (fun i => ¬ i.path = e.path) =
      files.all (fun f => ¬ f.path = e.path) := by
  induction files generalizing n with
  | nil => rfl
  | cons f rest ih =>
    simp only [treeItemsFor, List.all_cons, ih]

theorem createBlobs_spec (s : GitState) (files : List FileSnap) :
    (createBlobs s files).1.trees = s.trees ∧
    (createBlobs s files).1.commits = s.commits ∧
    (createBlobs s files).1.refs = s.refs ∧
    (createBlobs s files).1.defaultBranch = s.defaultBranch ∧
    (createBlobs s files).1.nextSha = s.nextSha + files.length ∧
    (createBlobs s files).2 = treeItemsFor s.nextSha files ∧
    StepExt s (createBlobs s files).1 := by
  induction files generalizing s with
  | nil =>
    exact ⟨rfl, rfl, rfl, rfl, rfl, rfl, stepExt_refl s⟩
  | cons f rest ih =>
    rw [createBlobs_cons]
    dsimp only
    set s1 := (createBlob s (encodeSnap f.content).content (encodeSnap f.content).encoding).1
      with hs1
    have ihr := ih s1
    have hn1 : s1.nextSha = s.nextSha + 1 := rfl
    refine ⟨?_, ?_, ?_, ?_, ?_, ?_, ?_⟩
    · rw [ihr.1]
      rfl
    · rw [ihr.2.1]
      rfl
    · rw [ihr.2.2.1]
      rfl
    · rw [ihr.2.2.2.1]
      rfl
    · rw [ihr.2.2.2.2.1, hn1, List.length_cons]
      omega
    · rw [ihr.2.2.2.2.2.1, hn1, treeItemsFor]
    · exact stepExt_trans (stepExt_createBlob s _ _) ihr.2.2.2.2.2.2

theorem wf_createBlobs {s : GitState} (hw : WfState s) (files : List FileSnap) :
    WfState (createBlobs s files).1 := by
  induction files generalizing s with
  | nil => exact hw
  | cons f rest ih =>
    rw [createBlobs_cons]
    exact ih (wf_createBlob hw _ _)

theorem createBlobs_lookup (s : GitState) (files : List FileSnap) :
    ∀ i (hi : i < files.length),
      (createBlobs s files).1.blobs.lookup (s.nextSha + i) =
        some (encodeSnap (files.get ⟨i, hi⟩).content) := by
  induction files generalizing s with
  | nil =>
    intro i hi
    exact absurd hi (by simp)
  | cons f rest ih =>
    intro i hi
    rw [createBlobs_cons]
    dsimp only
    set s1 := (createBlob s (encodeSnap f.content).content (encodeSnap f.content).encoding).1
      with hs1
    have hstep2 : StepExt s1 (createBlobs s1 rest).1 := (createBlobs_spec s1 rest).2.2.2.2.2.2
    have hn1 : s1.nextSha = s.nextSha + 1 := rfl
    rcases i with _ | j
    · have hlt : s.nextSha + 0 < s1.nextSha := by omega
      rw [blobs_stable hstep2 hlt]
      have hself : s1.blobs.lookup (s.nextSha + 0) = some (encodeSnap f.content) := by
        rw [Nat.add_zero, hs1, createBlob_fst]
        exact lookup_cons_self _ _ _
      rw [hself]
      rfl
    · have := ih s1 j (by simpa using Nat.lt_of_succ_lt_succ hi)
      rw [show s.nextSha + (j + 1) = s1.nextSha + j by omega, this]
      rfl

/-- A successful `commitMultipleFiles` run written out: given the head read
(step 1) succeeds, the run deterministically allocates one blob per file, one
merged tree, one commit with the head as single parent, and repoints the
branch ref at that commit. -/
theorem commitMultipleFiles_run {s : GitState} {br : String} (files : List FileSnap)
    (msg : String) {latest : Nat} {c0 : CommitObj} {es0 : List TreeEntry}
    (hl : getRef s br = some latest) (hc0 : getCommit s latest = some c0)
    (hes : s.trees.lookup c0.tree = some es0) :
    commitMultipleFiles s br files msg =
      .ok ({ blobs := (createBlobs s files).1.blobs
             trees := (s.nextSha + files.length,
               treeItemsFor s.nextSha files ++
                 es0.filter (fun e => files.all (fun f => ¬ f.path = e.path))) :: s.trees
             commits := (s.nextSha + files.length + 1,
               CommitObj.mk msg (s.nextSha + files.length) [latest]) :: s.commits
             refs := setAssoc s.refs br (s.nextSha + files.length + 1)
             defaultBranch := s.defaultBranch
             nextSha := s.nextSha + files.length + 2 },
           s.nextSha + files.length + 1) := by
  obtain ⟨htr, hcm, hrf, hdf, hns, hit, hstep⟩ := createBlobs_spec s files
  rw [commitMultipleFiles]
  simp only [hl, hc0]
  rcases hcb : createBlobs s files with ⟨s1, items⟩
  simp only [hcb] at htr hcm hrf hdf hns hit
  have hlook : s1.trees.lookup c0.tree = some es0 := by rw [htr]; exact hes
  simp only [createTree, hlook, createCommit]
  have hrefs : ({ s1 with
      trees := (s1.nextSha, items ++ es0.filter
        (fun e => items.all (fun i => ¬ i.path = e.path))) :: s1.trees
      nextSha := s1.nextSha + 1 } : GitState).refs.lookup br = some latest := by
    dsimp only
    rw [hrf]
    exact hl
  simp only [updateRef]
  rw [hrf]
  have hl' : s.refs.lookup br = some latest := hl
  simp only [hl']
  simp only [Except.ok.injEq, Prod.mk.injEq]
  refine ⟨?_, ?_⟩
  · simp only [GitState.mk.injEq]
    refine ⟨trivial, ?_, ?_, ?_, hdf, ?_⟩
    · rw [htr, hns, hit]
      simp only [treeItemsFor_all_path]
    · rw [hcm, hns]
    · rw [hns]
    · rw [hns]
  · rw [hns]

theorem find?_append_left {α : Type} (p : α → Bool) (l₁ l₂ : List α) {a : α}
    (h : l₁.find? p = some a) : (l₁ ++ l₂).find? p = some a := by
  induction l₁ with
  | nil => simp [List.find?] at h
  | cons x t ih =>
    rw [List.cons_append]
    rcases hx : p x with _ | _
    · rw [List.find?_cons_of_neg _ (by simp [hx])] at h ⊢
      exact ih h
    · rw [List.find?_cons_of_pos _ hx] at h ⊢
      exact h

theorem find?_append_right {α : Type} (p : α → Bool) (l₁ l₂ : List α)
    (h : l₁.find? p = none) : (l₁ ++ l₂).find? p = l₂.find? p := by
  induction l₁ with
  | nil => rfl
  | cons x t ih =>
    rw [List.cons_append]
    rcases hx : p x with _ | _
    · rw [List.find?_cons_of_neg _ (by simp [hx])] at h ⊢
      exact ih h
    · rw [List.find?_cons_of_pos _ hx] at h
      exact Option.noConfusion h

theorem entryLookup_filter (es : List TreeEntry) (q : TreeEntry → Bool) (p : String)
    (hq : ∀ e ∈ es, e.path = p → q e = true) :
    entryLookup (es.filter q) p = entryLookup es p := by
  induction es with
  | nil => rfl
  | cons e t ih =>
    have ihr := ih (fun e he hep => hq e (by simp [he]) hep)
    simp only [entryLookup] at ihr ⊢
    by_cases hp : e.path = p
    · have hqe : q e = true := hq e (by simp) hp
      rw [List.filter_cons_of_pos hqe, List.find?_cons_of_pos _ (by simp [hp]),
        List.find?_cons_of_pos _ (by simp [hp])]
    · rcases hqe : q e with _ | _
      · rw [List.filter_cons_of_neg (by simp [hqe]), List.find?_cons_of_neg _ (by simp [hp])]
        exact ihr
      · rw [List.filter_cons_of_pos hqe, List.find?_cons_of_neg _ (by simp [hp]),
          List.find?_cons_of_neg _ (by simp [hp])]
        exact ihr

theorem treeItemsFor_lookup_not_mem (n : Nat) (files : List FileSnap) (p : String)
    (hp : p ∉ files.map FileSnap.path) :
    entryLookup (treeItemsFor n files) p = none := by
  induction files generalizing n with
  | nil => rfl
  | cons f rest ih =>
    simp only [List.map_cons, List.mem_cons] at hp
    push_neg at hp
    simp only [treeItemsFor, entryLookup]
    rw [List.find?_cons_of_neg _ (by simp; exact fun h => hp.1 h.symm)]
    exact ih (n + 1) hp.2

theorem treeItemsFor_lookup_mem (n : Nat) (files : List FileSnap)
    (hnd : (files.map FileSnap.path).Nodup) {f : FileSnap} (hf : f ∈ files) :
    ∃ i, ∃ hi : i < files.length, files.get ⟨i, hi⟩ = f ∧
      entryLookup (treeItemsFor n files) f.path =
        some (TreeEntry.mk f.path "100644" "blob" (n + i)) := by
  induction files generalizing n with
  | nil => simp at hf
  | cons g rest ih =>
    rcases List.mem_cons.1 hf with rfl | hf'
    · refine ⟨0, by simp, rfl, ?_⟩
      simp only [treeItemsFor, entryLookup]
      rw [List.find?_cons_of_pos _ (by simp)]
      rw [Nat.add_zero]
    · have hgf : g.path ≠ f.path := by
        intro hcon
        have : f.path ∈ rest.map FileSnap.path := List.mem_map_of_mem _ hf'
        rw [← hcon] at this
        exact (List.nodup_cons.1 hnd).1 this
      obtain ⟨i, hi, hg, hlook⟩ := ih (n + 1) (List.nodup_cons.1 hnd).2 hf'
      refine ⟨i + 1, by simpa using Nat.succ_lt_succ hi, by simpa using hg, ?_⟩
      simp only [treeItemsFor, entryLookup]
      rw [List.find?_cons_of_neg _ (by simp [hgf])]
      rw [entryLookup] at hlook
      rw [hlook, show n + 1 + i = n + (i + 1) by omega]

theorem branchFileBytes_eq {s : GitState} {br : String} {h : Nat} (p : String)
    (hr : getRef s br = some h) :
    branchFileBytes s br p = fileBytesAtCommit s h p := by
  rw [branchFileBytes, hr]

theorem fileBytesAtCommit_eq {s : GitState} {c : Nat} {obj : CommitObj} {es : List TreeEntry}
    (hc : getCommit s c = some obj) (hes : s.trees.lookup obj.tree = some es) (p : String) :
    fileBytesAtCommit s c p =
      (entryLookup es p).bind (fun en => (s.blobs.lookup en.sha).map blobBytes) := by
  simp only [fileBytesAtCommit, fileBlobAtCommit, fileShaAtCommit, hc, hes]
  rcases entryLookup es p with _ | en <;> simp

/-! ## Claim C7 -/

/-- C7: `commitFiles` with an empty file list, run against any state in which
the branch head and its base tree resolve, still creates one new commit whose
tree carries exactly the base tree's entries, whose single parent is the prior
head, and the ref advances to it; every path's observable content on the
branch is unchanged. -/
theorem qiros_C7 (s : GitState) (br : String) (msg : String)
    (latest : Nat) (c0 : CommitObj) (es0 : List TreeEntry)
    (hl : getRef s br = some latest) (hc0 : getCommit s latest = some c0)
    (hes : s.trees.lookup c0.tree = some es0) :
    ∃ S newSha, commitMultipleFiles s br [] msg = .ok (S, newSha) ∧
      getRef S br = some newSha ∧
      S.commits.length = s.commits.length + 1 ∧
      (∃ obj, getCommit S newSha = some obj ∧ obj.message = msg ∧
        obj.parents = [latest] ∧ S.trees.lookup obj.tree = some es0) ∧
      (∀ p, branchFileBytes S br p = branchFileBytes s br p) := by
  have hmerge : treeItemsFor s.nextSha ([] : List FileSnap) ++
      es0.filter (fun e => ([] : List FileSnap).all (fun f => ¬ f.path = e.path)) = es0 := by
    simp [treeItemsFor]
  have hrun := @commitMultipleFiles_run s br [] msg _ _ _ hl hc0 hes
  rw [hmerge] at hrun
  simp only [List.length_nil, Nat.add_zero] at hrun
  set S : GitState := { blobs := (createBlobs s []).1.blobs
                        trees := (s.nextSha, es0) :: s.trees
                        commits := (s.nextSha + 1,
                          CommitObj.mk msg s.nextSha [latest]) :: s.commits
                        refs := setAssoc s.refs br (s.nextSha + 1)
                        defaultBranch := s.defaultBranch
                        nextSha := s.nextSha + 2 } with hS
  have hgr : getRef S br = some (s.nextSha + 1) := by
    rw [hS]
    exact lookup_setAssoc_self s.refs br _ latest hl
  have hgc : getCommit S (s.nextSha + 1) = some (CommitObj.mk msg s.nextSha [latest]) := by
    rw [hS]
    exact lookup_cons_self _ _ _
  have hgt : S.trees.lookup s.nextSha = some es0 := by
    rw [hS]
    exact lookup_cons_self _ _ _
  refine ⟨S, s.nextSha + 1, hrun, hgr, ?_, ⟨CommitObj.mk msg s.nextSha [latest],
    hgc, rfl, rfl, hgt⟩, ?_⟩
  · rw [hS]
    simp
  · intro p
    rw [branchFileBytes_eq p hgr, branchFileBytes_eq p hl,
      fileBytesAtCommit_eq hgc hgt p, fileBytesAtCommit_eq hc0 hes p, hS]
    rfl

/-- Witness for C7 on the one-commit demo repository. -/
theorem qiros_C7_witness :
    ∃ S newSha, commitMultipleFiles demoRepo "main" [] "noop" = .ok (S, newSha) ∧
      getRef S "main" = some newSha ∧
      S.commits.length = demoRepo.commits.length + 1 ∧
      (∃ obj, getCommit S newSha = some obj ∧ obj.message = "noop" ∧
        obj.parents = [2] ∧
        S.trees.lookup obj.tree = some [TreeEntry.mk "character.json" "100644" "blob" 0]) ∧
      (∀ p, branchFileBytes S "main" p = branchFileBytes demoRepo "main" p) :=
  qiros_C7 demoRepo "main" "noop" 2 (CommitObj.mk "c0" 1 [])
    [TreeEntry.mk "character.json" "100644" "blob" 0] (by rfl) (by rfl) (by rfl)

/-! ## Claim C2 -/

/-- C2: a successful `commitMultipleFiles` run creates exactly one commit
whose single parent is the head read at the start and whose tree consists of
exactly one `(path, "100644", "blob", new-SHA)` entry per input file laid over
the base tree; the i-th file's blob holds its encoded content, each input
path's observable branch content becomes its new content, and untouched paths
are inherited unchanged. -/
theorem qiros_C2 (s : GitState) (br : String) (files : List FileSnap) (msg : String)
    (latest : Nat) (c0 : CommitObj) (es0 : List TreeEntry)
    (hw : WfState s) (hnd : (files.map FileSnap.path).Nodup)
    (hl : getRef s br = some latest) (hc0 : getCommit s latest = some c0)
    (hes : s.trees.lookup c0.tree = some es0) :
    ∃ S newSha, commitMultipleFiles s br files msg = .ok (S, newSha) ∧
      S.commits.length = s.commits.length + 1 ∧
      getRef S br = some newSha ∧
      (∃ obj, getCommit S newSha = some obj ∧ obj.message = msg ∧ obj.parents = [latest] ∧
        S.trees.lookup obj.tree = some (treeItemsFor s.nextSha files ++
          es0.filter (fun e => files.all (fun f => ¬ f.path = e.path)))) ∧
      (∀ i (hi : i < files.length),
        S.blobs.lookup (s.nextSha + i) = some (encodeSnap (files.get ⟨i, hi⟩).content)) ∧
      (∀ f ∈ files, branchFileBytes S br f.path = some (blobBytes (encodeSnap f.content))) ∧
      (∀ p, p ∉ files.map FileSnap.path →
        branchFileBytes S br p = branchFileBytes s br p) := by
  have hrun := commitMultipleFiles_run files msg hl hc0 hes
  set MERGED := treeItemsFor s.nextSha files ++
    es0.filter (fun e => files.all (fun f => ¬ f.path = e.path)) with hM
  set S : GitState := { blobs := (createBlobs s files).1.blobs
                        trees := (s.nextSha + files.length, MERGED) :: s.trees
                        commits := (s.nextSha + files.length + 1,
                          CommitObj.mk msg (s.nextSha + files.length) [latest]) :: s.commits
                        refs := setAssoc s.refs br (s.nextSha + files.length + 1)
                        defaultBranch := s.defaultBranch
                        nextSha := s.nextSha + files.length + 2 } with hS
  have hgr : getRef S br = some (s.nextSha + files.length + 1) := by
    rw [hS]
    exact lookup_setAssoc_self s.refs br _ latest hl
  have hgc : getCommit S (s.nextSha + files.length + 1) =
      some (CommitObj.mk msg (s.nextSha + files.length) [latest]) := by
    rw [hS]
    exact lookup_cons_self _ _ _
  have hgt : S.trees.lookup (s.nextSha + files.length) = some MERGED := by
    rw [hS]
    exact lookup_cons_self _ _ _
  have hstep : StepExt s (createBlobs s files).1 := (createBlobs_spec s files).2.2.2.2.2.2
  refine ⟨S, s.nextSha + files.length + 1, hrun, ?_, hgr,
    ⟨CommitObj.mk msg (s.nextSha + files.length) [latest], hgc, rfl, rfl, hgt⟩, ?_, ?_, ?_⟩
  · rw [hS]
    simp
  · intro i hi
    rw [hS]
    exact createBlobs_lookup s files i hi
  · intro f hf
    obtain ⟨i, hi, hget, hitem⟩ := treeItemsFor_lookup_mem s.nextSha files hnd hf
    have hen : entryLookup MERGED f.path =
        some (TreeEntry.mk f.path "100644" "blob" (s.nextSha + i)) := by
      rw [hM, entryLookup]
      rw [entryLookup] at hitem
      exact find?_append_left _ _ _ hitem
    rw [branchFileBytes_eq f.path hgr, fileBytesAtCommit_eq hgc hgt f.path, hen]
    have hblob : S.blobs.lookup (s.nextSha + i) =
        some (encodeSnap (files.get ⟨i, hi⟩).content) := by
      rw [hS]
      exact createBlobs_lookup s files i hi
    simp only [Option.bind_some]
    show (S.blobs.lookup (TreeEntry.mk f.path "100644" "blob" (s.nextSha + i)).sha).map
        blobBytes = some (blobBytes (encodeSnap f.content))
    show (S.blobs.lookup (s.nextSha + i)).map blobBytes = some (blobBytes (encodeSnap f.content))
    rw [hblob, hget]
    rfl
  · intro p hp
    have hitems : entryLookup (treeItemsFor s.nextSha files) p = none :=
      treeItemsFor_lookup_not_mem s.nextSha files p hp
    have hfilter : entryLookup (es0.filter
        (fun e => files.all (fun f => ¬ f.path = e.path))) p = entryLookup es0 p := by
      refine entryLookup_filter es0 _ p ?_
      intro e he hep
      rw [List.all_eq_true]
      intro f hf
      have : f.path ≠ p := by
        intro hcon
        exact hp (hcon ▸ List.mem_map_of_mem _ hf)
      simp [hep, this]
    have hen : entryLookup MERGED p = entryLookup es0 p := by
      rw [hM, entryLookup]
      rw [entryLookup] at hitems hfilter
      rw [find?_append_right _ _ _ hitems]
      exact hfilter
    rw [branchFileBytes_eq p hgr, fileBytesAtCommit_eq hgc hgt p, hen,
      branchFileBytes_eq p hl, fileBytesAtCommit_eq hc0 hes p]
    rcases hlk : entryLookup es0 p with _ | en
    · rfl
    · simp only [Option.bind_some]
      have hmem : en ∈ es0 := List.mem_of_find?_eq_some hlk
      have hsha : en.sha < s.nextSha := (hw.2.1 _ (lookup_eq_some_mem hes)).2 en hmem
      show ((createBlobs s files).1.blobs.lookup en.sha).map blobBytes =
        (s.blobs.lookup en.sha).map blobBytes
      rw [blobs_stable hstep hsha]

/-- Witness for C2: the spec's two-file example scenario on the demo
repository — one commit, two changed tree entries, single parent the prior
head (commit 2). -/
theorem qiros_C2_witness :
    ∃ S newSha, commitMultipleFiles demoRepo "main"
        [FileSnap.mk "character.json" (.str "\x7b\"a\":1\x7d"),
         FileSnap.mk "card.png" (.buf [65, 66])] "update" = .ok (S, newSha) ∧
      S.commits.length = demoRepo.commits.length + 1 ∧
      getRef S "main" = some newSha ∧
      (∃ obj, getCommit S newSha = some obj ∧ obj.message = "update" ∧ obj.parents = [2] ∧
        S.trees.lookup obj.tree = some (treeItemsFor demoRepo.nextSha
            [FileSnap.mk "character.json" (.str "\x7b\"a\":1\x7d"),
             FileSnap.mk "card.png" (.buf [65, 66])] ++
          [TreeEntry.mk "character.json" "100644" "blob" 0].filter
            (fun e => [FileSnap.mk "character.json" (.str "\x7b\"a\":1\x7d"),
              FileSnap.mk "card.png" (.buf [65, 66])].all (fun f => ¬ f.path = e.path)))) ∧
      (∀ i (hi : i < [FileSnap.mk "character.json" (.str "\x7b\"a\":1\x7d"),
          FileSnap.mk "card.png" (.buf [65, 66])].length),
        S.blobs.lookup (demoRepo.nextSha + i) =
          some (encodeSnap ([FileSnap.mk "character.json" (.str "\x7b\"a\":1\x7d"),
            FileSnap.mk "card.png" (.buf [65, 66])].get ⟨i, hi⟩).content)) ∧
      (∀ f ∈ [FileSnap.mk "character.json" (.str "\x7b\"a\":1\x7d"),
          FileSnap.mk "card.png" (.buf [65, 66])],
        branchFileBytes S "main" f.path = some (blobBytes (encodeSnap f.content))) ∧
      (∀ p, p ∉ [FileSnap.mk "character.json" (.str "\x7b\"a\":1\x7d"),
          FileSnap.mk "card.png" (.buf [65, 66])].map FileSnap.path →
        branchFileBytes S "main" p = branchFileBytes demoRepo "main" p) :=
  qiros_C2 demoRepo "main"
    [FileSnap.mk "character.json" (.str "\x7b\"a\":1\x7d"), FileSnap.mk "card.png" (.buf [65, 66])]
    "update" 2 (CommitObj.mk "c0" 1 []) [TreeEntry.mk "character.json" "100644" "blob" 0]
    (by decide) (by decide) (by rfl) (by rfl) (by rfl)

theorem createBlobsStates_props (s : GitState) (files : List FileSnap) :
    ∀ t ∈ createBlobsStates s files,
      t.refs = s.refs ∧ t.trees = s.trees ∧ t.commits = s.commits ∧ StepExt s t := by
  induction files generalizing s with
  | nil =>
    intro t ht
    simp [createBlobsStates] at ht
  | cons f rest ih =>
    intro t ht
    rw [createBlobsStates_cons] at ht
    rcases List.mem_cons.1 ht with rfl | ht'
    · exact ⟨rfl, rfl, rfl, stepExt_createBlob s _ _⟩
    · obtain ⟨h1, h2, h3, h4⟩ := ih
        (createBlob s (encodeSnap f.content).content (encodeSnap f.content).encoding).1 t ht'
      exact ⟨h1, h2, h3, stepExt_trans (stepExt_createBlob s _ _) h4⟩

/-- The branch-visible content of the final state of a successful
`commitMultipleFiles` run: each input path carries its new content, all other
paths are inherited unchanged, and the ref points at the new commit. -/
theorem cmf_ok_content {s : GitState} {br : String} {files : List FileSnap} {msg : String}
    {latest : Nat} {c0 : CommitObj} {es0 : List TreeEntry} {S : GitState} {newSha : Nat}
    (hw : WfState s) (hnd : (files.map FileSnap.path).Nodup)
    (hl : getRef s br = some latest) (hc0 : getCommit s latest = some c0)
    (hes : s.trees.lookup c0.tree = some es0)
    (hok : commitMultipleFiles s br files msg = .ok (S, newSha)) :
    getRef S br = some newSha ∧
    (∀ f ∈ files, branchFileBytes S br f.path = some (blobBytes (encodeSnap f.content))) ∧
    (∀ p, p ∉ files.map FileSnap.path →
      branchFileBytes S br p = branchFileBytes s br p) := by
  rw [commitMultipleFiles_run files msg hl hc0 hes] at hok
  have hpair := Except.ok.inj hok
  have hS := congrArg Prod.fst hpair
  have hn := congrArg Prod.snd hpair
  dsimp only at hS hn
  subst hn
  have hstep : StepExt s (createBlobs s files).1 := (createBlobs_spec s files).2.2.2.2.2.2
  have hgr : getRef S br = some (s.nextSha + files.length + 1) := by
    rw [← hS]
    exact lookup_setAssoc_self s.refs br _ latest hl
  have hgc : getCommit S (s.nextSha + files.length + 1) =
      some (CommitObj.mk msg (s.nextSha + files.length) [latest]) := by
    rw [← hS]
    exact lookup_cons_self _ _ _
  have hgt : S.trees.lookup (s.nextSha + files.length) =
      some (treeItemsFor s.nextSha files ++
        es0.filter (fun e => files.all (fun f => ¬ f.path = e.path))) := by
    rw [← hS]
    exact lookup_cons_self _ _ _
  have hbl : S.blobs = (createBlobs s files).1.blobs := by
    rw [← hS]
  refine ⟨hgr, ?_, ?_⟩
  · intro f hf
    obtain ⟨i, hi, hget, hitem⟩ := treeItemsFor_lookup_mem s.nextSha files hnd hf
    have hen : entryLookup (treeItemsFor s.nextSha files ++
        es0.filter (fun e => files.all (fun f => ¬ f.path = e.path))) f.path =
        some (TreeEntry.mk f.path "100644" "blob" (s.nextSha + i)) := by
      rw [entryLookup]
      rw [entryLookup] at hitem
      exact find?_append_left _ _ _ hitem
    rw [branchFileBytes_eq f.path hgr, fileBytesAtCommit_eq hgc hgt f.path, hen]
    show (S.blobs.lookup (s.nextSha + i)).map blobBytes = _
    rw [hbl, createBlobs_lookup s files i hi, hget]
    rfl
  · intro p hp
    have hitems : entryLookup (treeItemsFor s.nextSha files) p = none :=
      treeItemsFor_lookup_not_mem s.nextSha files p hp
    have hfilter : entryLookup (es0.filter
        (fun e => files.all (fun f => ¬ f.path = e.path))) p = entryLookup es0 p := by
      refine entryLookup_filter es0 _ p ?_
      intro e he hep
      rw [List.all_eq_true]
      intro f hf
      have : f.path ≠ p := by
        intro hcon
        exact hp (hcon ▸ List.mem_map_of_mem _ hf)
      simp [hep, this]
    have hen : entryLookup (treeItemsFor s.nextSha files ++
        es0.filter (fun e => files.all (fun f => ¬ f.path = e.path))) p =
        entryLookup es0 p := by
      rw [entryLookup]
      rw [entryLookup] at hitems hfilter
      rw [find?_append_right _ _ _ hitems]
      exact hfilter
    rw [branchFileBytes_eq p hgr, fileBytesAtCommit_eq hgc hgt p, hen,
      branchFileBytes_eq p hl, fileBytesAtCommit_eq hc0 hes p]
    rcases hlk : entryLookup es0 p with _ | en
    · rfl
    · have hmem : en ∈ es0 := List.mem_of_find?_eq_some hlk
      have hsha : en.sha < s.nextSha := (hw.2.1 _ (lookup_eq_some_mem hes)).2 en hmem
      show (S.blobs.lookup en.sha).map blobBytes = (s.blobs.lookup en.sha).map blobBytes
      rw [hbl, blobs_stable hstep hsha]

/-! ## Claim C1 -/

/-- C1: atomicity of the multi-file commit engine.  The trace of provider
states visited by a successful run splits as `pre ++ [last]`: at every state
before the final ref update the branch head and every path's branch-visible
content are exactly those of the initial state (steps 2-4 create objects but
mutate nothing visible to a reader of the branch), and only the final state --
produced by the single ref update -- shows the new head, under which all
committed files carry their new content simultaneously; so a reader sees the
pre-operation state or the post-operation state and never one file's update
without the other's. -/
theorem qiros_C1 (s : GitState) (br : String) (files : List FileSnap) (msg : String)
    (latest : Nat) (c0 : CommitObj) (es0 : List TreeEntry)
    (hw : WfState s) (hnd : (files.map FileSnap.path).Nodup)
    (hl : getRef s br = some latest) (hc0 : getCommit s latest = some c0)
    (hes : s.trees.lookup c0.tree = some es0) :
    ∃ pre last newSha,
      commitMultipleFilesTrace s br files msg = .ok (pre ++ [last], newSha) ∧
      commitMultipleFiles s br files msg = .ok (last, newSha) ∧
      (∀ t ∈ pre, getRef t br = getRef s br ∧
        ∀ p, branchFileBytes t br p = branchFileBytes s br p) ∧
      getRef last br = some newSha ∧
      (∀ f ∈ files, branchFileBytes last br f.path = some (blobBytes (encodeSnap f.content))) ∧
      (∀ p, p ∉ files.map FileSnap.path →
        branchFileBytes last br p = branchFileBytes s br p) := by
  obtain ⟨htr, hcm, hrf, hdf, hns, hit, hstep⟩ := createBlobs_spec s files
  have hl' : s.refs.lookup br = some latest := hl
  have hlat : latest < s.nextSha := hw.2.2.2 _ (lookup_eq_some_mem hl')
  rcases hcb : createBlobs s files with ⟨s1, items⟩
  simp only [hcb] at htr hcm hrf hdf hns hit hstep
  have hlook : s1.trees.lookup c0.tree = some es0 := by rw [htr]; exact hes
  set M := items ++ es0.filter (fun e => items.all (fun i => ¬ i.path = e.path)) with hM
  set S2 : GitState := { s1 with
    trees := (s1.nextSha, M) :: s1.trees
    nextSha := s1.nextSha + 1 } with hS2
  set S3 : GitState := { s1 with
    trees := (s1.nextSha, M) :: s1.trees
    commits := (s1.nextSha + 1, CommitObj.mk msg s1.nextSha [latest]) :: s1.commits
    nextSha := s1.nextSha + 2 } with hS3
  set S4 : GitState := { s1 with
    trees := (s1.nextSha, M) :: s1.trees
    commits := (s1.nextSha + 1, CommitObj.mk msg s1.nextSha [latest]) :: s1.commits
    refs := setAssoc s1.refs br (s1.nextSha + 1)
    nextSha := s1.nextSha + 2 } with hS4
  have hup : s1.refs.lookup br = some latest := by rw [hrf]; exact hl'
  have htrace : commitMultipleFilesTrace s br files msg =
      .ok (s :: createBlobsStates s files ++ [S2, S3, S4], s1.nextSha + 1) := by
    rw [commitMultipleFilesTrace]
    simp only [hl, hc0, hcb, createTree, hlook, createCommit, updateRef]
    simp only [hup]
  have hfiles : commitMultipleFiles s br files msg = .ok (S4, s1.nextSha + 1) := by
    rw [commitMultipleFiles]
    simp only [hl, hc0, hcb, createTree, hlook, createCommit, updateRef]
    simp only [hup]
  have hrefs2 : S2.refs = s.refs := hrf
  have hrefs3 : S3.refs = s.refs := hrf
  have hstep2 : StepExt s S2 := by
    refine stepExt_trans hstep ⟨by dsimp only [hS2]; omega, ⟨[], rfl, by simp⟩,
      ⟨[(s1.nextSha, M)], rfl, ?_⟩, ⟨[], rfl, by simp⟩⟩
    intro q hq
    rcases List.mem_cons.1 hq with rfl | hq
    · exact le_refl _
    · simp at hq
  have hstep3 : StepExt s S3 := by
    refine stepExt_trans hstep ⟨by dsimp only [hS3]; omega, ⟨[], rfl, by simp⟩,
      ⟨[(s1.nextSha, M)], rfl, ?_⟩, ⟨[(s1.nextSha + 1, CommitObj.mk msg s1.nextSha [latest])],
        rfl, ?_⟩⟩
    · intro q hq
      rcases List.mem_cons.1 hq with rfl | hq
      · exact le_refl _
      · simp at hq
    · intro q hq
      rcases List.mem_cons.1 hq with rfl | hq
      · dsimp only
        omega
      · simp at hq
  have hmid : ∀ t : GitState, t.refs = s.refs → StepExt s t →
      getRef t br = getRef s br ∧
      ∀ p, branchFileBytes t br p = branchFileBytes s br p := by
    intro t htrf hts
    have hgrt : getRef t br = some latest := by
      rw [getRef, htrf]
      exact hl'
    refine ⟨by rw [hgrt, hl], ?_⟩
    intro p
    rw [branchFileBytes_eq p hgrt, branchFileBytes_eq p hl,
      fileBytesAtCommit_stable hw hts hlat p]
  obtain ⟨hgr4, hnew4, hold4⟩ := cmf_ok_content hw hnd hl hc0 hes hfiles
  refine ⟨s :: createBlobsStates s files ++ [S2, S3], S4, s1.nextSha + 1, ?_, hfiles,
    ?_, hgr4, hnew4, hold4⟩
  · rw [htrace]
    simp
  · intro t ht
    rcases List.mem_cons.1 ht with rfl | ht
    · exact ⟨rfl, fun p => rfl⟩
    · rcases List.mem_append.1 ht with ht | ht
      · obtain ⟨h1, h2, h3, h4⟩ := createBlobsStates_props s files t ht
        exact hmid t h1 h4
      · rcases List.mem_cons.1 ht with rfl | ht
        · exact hmid S2 hrefs2 hstep2
        · rcases List.mem_cons.1 ht with rfl | ht
          · exact hmid S3 hrefs3 hstep3
          · simp at ht

theorem qiros_C1_witness :
    WfState demoRepo ∧
    (∃ pre last newSha,
      commitMultipleFilesTrace demoRepo "main"
        [FileSnap.mk "character.json" (.str "\x7b\"a\":1\x7d"),
         FileSnap.mk "card.png" (.buf [65, 66])] "update" = .ok (pre ++ [last], newSha) ∧
      commitMultipleFiles demoRepo "main"
        [FileSnap.mk "character.json" (.str "\x7b\"a\":1\x7d"),
         FileSnap.mk "card.png" (.buf [65, 66])] "update" = .ok (last, newSha) ∧
      (∀ t ∈ pre, getRef t "main" = getRef demoRepo "main" ∧
        ∀ p, branchFileBytes t "main" p = branchFileBytes demoRepo "main" p) ∧
      getRef last "main" = some newSha ∧
      (∀ f ∈ [FileSnap.mk "character.json" (.str "\x7b\"a\":1\x7d"),
          FileSnap.mk "card.png" (.buf [65, 66])],
        branchFileBytes last "main" f.path = some (blobBytes (encodeSnap f.content))) ∧
      (∀ p, p ∉ [FileSnap.mk "character.json" (.str "\x7b\"a\":1\x7d"),
          FileSnap.mk "card.png" (.buf [65, 66])].map FileSnap.path →
        branchFileBytes last "main" p = branchFileBytes demoRepo "main" p)) :=
  ⟨by decide,
   qiros_C1 demoRepo "main"
     [FileSnap.mk "character.json" (.str "\x7b\"a\":1\x7d"),
      FileSnap.mk "card.png" (.buf [65, 66])] "update"
     2 (CommitObj.mk "c0" 1 []) [TreeEntry.mk "character.json" "100644" "blob" 0]
     (by decide) (by decide) rfl rfl rfl⟩
/-! ## The revert engine: run equations and stability -/

theorem getFileContent_ok (s : GitState) (r : RefSpec) (p : String) :
    ∃ o, getFileContent s r p = .ok o := by
  rw [getFileContent]
  rcases hr : getContentApi s r p with e | v
  · have he : e.is404 = true := by
      rw [getContentApi] at hr
      rcases h1 : resolveRef s r with _ | c <;> simp only [h1] at hr
      · cases hr; rfl
      · rcases h2 : fileShaAtCommit s c p with _ | bsha <;> simp only [h2] at hr
        · cases hr; rfl
        · rcases h3 : s.blobs.lookup bsha with _ | b <;> simp only [h3] at hr
          · cases hr; rfl
          · exact Except.noConfusion hr
    exact ⟨none, by simp [he]⟩
  · exact ⟨some v, rfl⟩

theorem getContentApi_commit_eq {s : GitState} {h : Nat} {c0 : CommitObj}
    {es0 : List TreeEntry} (p : String)
    (hc0 : getCommit s h = some c0) (hes : s.trees.lookup c0.tree = some es0) :
    getContentApi s (.commit h) p =
      match entryLookup es0 p with
      | none => .error (.http 404)
      | some en =>
        match s.blobs.lookup en.sha with
        | none => .error (.http 404)
        | some b => .ok (base64Encode (blobBytes b), en.sha) := by
  have hc0' : s.commits.lookup h = some c0 := hc0
  rw [getContentApi]
  simp only [resolveRef, hc0', Option.isSome_some, if_true]
  simp only [fileShaAtCommit, getCommit, hc0', hes]
  rcases hen : entryLookup es0 p with _ | en
  · simp
  · rfl

theorem getContentApi_commit_stable {s s' : GitState} (hw : WfState s) (he : StepExt s s')
    {k : Nat} (hk : k < s.nextSha) (p : String) :
    getContentApi s' (.commit k) p = getContentApi s (.commit k) p := by
  rw [getContentApi, getContentApi]
  have hres : resolveRef s' (.commit k) = resolveRef s (.commit k) := by
    simp only [resolveRef, commits_stable he hk]
  rw [hres]
  rcases h1 : resolveRef s (.commit k) with _ | c
  · simp only [h1]
  · have hcom : c = k := by
      simp only [resolveRef] at h1
      simp at h1
      exact h1.2.symm
    subst hcom
    simp only [h1]
    rw [fileShaAtCommit_stable hw he hk p]
    rcases h2 : fileShaAtCommit s c p with _ | bsha
    · simp only [h2]
    · simp only [h2]
      rw [blobs_stable he (fileShaAtCommit_lt hw h2)]

theorem getFileContent_commit_stable {s s' : GitState} (hw : WfState s) (he : StepExt s s')
    {k : Nat} (hk : k < s.nextSha) (p : String) :
    getFileContent s' (.commit k) p = getFileContent s (.commit k) p := by
  rw [getFileContent, getFileContent, getContentApi_commit_stable hw he hk p]

theorem entryLookup_filter_none {es : List TreeEntry} {p : String}
    (h : entryLookup es p = none) (q : TreeEntry → Bool) :
    entryLookup (es.filter q) p = none := by
  induction es with
  | nil => rfl
  | cons e t ih =>
    rw [entryLookup] at h
    rcases hp : (decide (e.path = p)) with _ | _
    · rw [List.find?_cons_of_neg _ (by simp [hp])] at h
      rcases hq : q e with _ | _
      · rw [List.filter_cons_of_neg (by simp [hq])]
        exact ih h
      · rw [List.filter_cons_of_pos hq, entryLookup,
          List.find?_cons_of_neg _ (by simp_all)]
        exact ih h
    · rw [List.find?_cons_of_pos _ (by simp_all)] at h
      exact Option.noConfusion h

/-- A successful `revertToVersion` run when `card.png` is present at the
target commit, written out as the explicit final state. -/
theorem revert_run_png {s : GitState} {br : String} {t : Nat}
    {j64 p64 : String} {jsha psha latest : Nat} {c0 : CommitObj} {es0 : List TreeEntry}
    (hj : getFileContent s (.commit t) "character.json" = .ok (some (j64, jsha)))
    (hp : getFileContent s (.commit t) "card.png" = .ok (some (p64, psha)))
    (hl : getRef s br = some latest)
    (hc : getCommit s latest = some c0)
    (hes : s.trees.lookup c0.tree = some es0) :
    revertToVersion s br t = .ok
      ({ blobs := (s.nextSha + 1, BlobObj.mk p64 "base64") ::
           (s.nextSha, BlobObj.mk (textOfBytes (base64Decode j64)) "utf-8") :: s.blobs
         trees := (s.nextSha + 2,
           [TreeEntry.mk "character.json" "100644" "blob" s.nextSha,
            TreeEntry.mk "card.png" "100644" "blob" (s.nextSha + 1)] ++
           es0.filter (fun e =>
             [TreeEntry.mk "character.json" "100644" "blob" s.nextSha,
              TreeEntry.mk "card.png" "100644" "blob" (s.nextSha + 1)].all
               (fun i => ¬ i.path = e.path))) :: s.trees
         commits := (s.nextSha + 3,
           CommitObj.mk ("回滚到版本 " ++ (toString t).take 7) (s.nextSha + 2)
             [latest]) :: s.commits
         refs := setAssoc s.refs br (s.nextSha + 3)
         defaultBranch := s.defaultBranch
         nextSha := s.nextSha + 4 },
       (textOfBytes (base64Decode j64), some p64)) := by
  have hl' : s.refs.lookup br = some latest := hl
  rw [revertToVersion]
  simp only [hj, hp, hl, hc, createBlob, createTree, createCommit, updateRef,
    Option.map_some']
  simp only [hes]
  simp only [hl']
  rfl

/-- A successful `revertToVersion` run when `card.png` is absent at the
target commit, written out as the explicit final state. -/
theorem revert_run_nopng {s : GitState} {br : String} {t : Nat}
    {j64 : String} {jsha latest : Nat} {c0 : CommitObj} {es0 : List TreeEntry}
    (hj : getFileContent s (.commit t) "character.json" = .ok (some (j64, jsha)))
    (hp : getFileContent s (.commit t) "card.png" = .ok none)
    (hl : getRef s br = some latest)
    (hc : getCommit s latest = some c0)
    (hes : s.trees.lookup c0.tree = some es0) :
    revertToVersion s br t = .ok
      ({ blobs := (s.nextSha, BlobObj.mk (textOfBytes (base64Decode j64)) "utf-8") :: s.blobs
         trees := (s.nextSha + 1,
           [TreeEntry.mk "character.json" "100644" "blob" s.nextSha] ++
           es0.filter (fun e =>
             [TreeEntry.mk "character.json" "100644" "blob" s.nextSha].all
               (fun i => ¬ i.path = e.path))) :: s.trees
         commits := (s.nextSha + 2,
           CommitObj.mk ("回滚到版本 " ++ (toString t).take 7) (s.nextSha + 1)
             [latest]) :: s.commits
         refs := setAssoc s.refs br (s.nextSha + 2)
         defaultBranch := s.defaultBranch
         nextSha := s.nextSha + 3 },
       (textOfBytes (base64Decode j64), none)) := by
  have hl' : s.refs.lookup br = some latest := hl
  rw [revertToVersion]
  simp only [hj, hp, hl, hc, createBlob, createTree, createCommit, updateRef,
    Option.map_none']
  simp only [hes]
  simp only [hl']
/-- The second revert of the double-revert experiment when both tracked files
exist at the target (the old head): both contents are restored byte-exactly. -/
theorem second_revert_png {s1 : GitState} {br : String} {h0 : Nat}
    {jb pb : Bytes} {jsha2 psha2 head1 : Nat} {c1 : CommitObj} {es1 : List TreeEntry}
    (hj : getFileContent s1 (.commit h0) "character.json" = .ok (some (base64Encode jb, jsha2)))
    (hp : getFileContent s1 (.commit h0) "card.png" = .ok (some (base64Encode pb, psha2)))
    (hl : getRef s1 br = some head1)
    (hc : getCommit s1 head1 = some c1)
    (hes : s1.trees.lookup c1.tree = some es1)
    (hjlt : ∀ x ∈ jb, x < 256) (hplt : ∀ x ∈ pb, x < 256) :
    ∃ s2 r, revertToVersion s1 br h0 = .ok (s2, r) ∧
      branchFileBytes s2 br "character.json" = some jb ∧
      branchFileBytes s2 br "card.png" = some pb := by
  have hr2 : List.lookup br (setAssoc s1.refs br (s1.nextSha + 3)) = some (s1.nextSha + 3) :=
    lookup_setAssoc_self s1.refs br (s1.nextSha + 3) head1 hl
  have he2 : entryLookup ([TreeEntry.mk "character.json" "100644" "blob" s1.nextSha,
      TreeEntry.mk "card.png" "100644" "blob" (s1.nextSha + 1)] ++
      es1.filter (fun e =>
        [TreeEntry.mk "character.json" "100644" "blob" s1.nextSha,
         TreeEntry.mk "card.png" "100644" "blob" (s1.nextSha + 1)].all
          (fun i => ¬ i.path = e.path))) "character.json" =
      some (TreeEntry.mk "character.json" "100644" "blob" s1.nextSha) :=
    find?_append_left _ _ _ rfl
  have he3 : entryLookup ([TreeEntry.mk "character.json" "100644" "blob" s1.nextSha,
      TreeEntry.mk "card.png" "100644" "blob" (s1.nextSha + 1)] ++
      es1.filter (fun e =>
        [TreeEntry.mk "character.json" "100644" "blob" s1.nextSha,
         TreeEntry.mk "card.png" "100644" "blob" (s1.nextSha + 1)].all
          (fun i => ¬ i.path = e.path))) "card.png" =
      some (TreeEntry.mk "card.png" "100644" "blob" (s1.nextSha + 1)) :=
    find?_append_left _ _ _ rfl
  refine ⟨_, _, revert_run_png hj hp hl hc hes, ?_, ?_⟩
  · simp only [branchFileBytes, getRef, hr2]
    simp only [fileBytesAtCommit, fileBlobAtCommit, fileShaAtCommit, getCommit,
      lookup_cons_self]
    rw [he2]
    simp only [Option.map_some']
    rw [lookup_cons_ne
      ((s1.nextSha, BlobObj.mk (textOfBytes (base64Decode (base64Encode jb))) "utf-8")
        :: s1.blobs)
      (BlobObj.mk (base64Encode pb) "base64")
      (show s1.nextSha ≠ s1.nextSha + 1 by omega)]
    rw [lookup_cons_self]
    simp only [Option.map_some']
    simp only [blobBytes]
    rw [if_neg (by decide : ¬ ("utf-8" : String) = "base64")]
    rw [base64_roundtrip jb hjlt, textBytes_textOfBytes jb hjlt]
  · simp only [branchFileBytes, getRef, hr2]
    simp only [fileBytesAtCommit, fileBlobAtCommit, fileShaAtCommit, getCommit,
      lookup_cons_self]
    rw [he3]
    simp only [Option.map_some']
    rw [lookup_cons_self]
    simp only [Option.map_some']
    simp only [blobBytes]
    rw [base64_roundtrip pb hplt]
    simp

/-- The second revert of the double-revert experiment when `card.png` exists
neither at the target (the old head) nor on the current head tree: the JSON
content is restored byte-exactly and `card.png` stays absent. -/
theorem second_revert_nopng {s1 : GitState} {br : String} {h0 : Nat}
    {jb : Bytes} {jsha2 head1 : Nat} {c1 : CommitObj} {es1 : List TreeEntry}
    (hj : getFileContent s1 (.commit h0) "character.json" = .ok (some (base64Encode jb, jsha2)))
    (hp : getFileContent s1 (.commit h0) "card.png" = .ok none)
    (hl : getRef s1 br = some head1)
    (hc : getCommit s1 head1 = some c1)
    (hes : s1.trees.lookup c1.tree = some es1)
    (hjlt : ∀ x ∈ jb, x < 256)
    (hpng1 : entryLookup es1 "card.png" = none) :
    ∃ s2 r, revertToVersion s1 br h0 = .ok (s2, r) ∧
      branchFileBytes s2 br "character.json" = some jb ∧
      branchFileBytes s2 br "card.png" = none := by
  have hr2 : List.lookup br (setAssoc s1.refs br (s1.nextSha + 2)) = some (s1.nextSha + 2) :=
    lookup_setAssoc_self s1.refs br (s1.nextSha + 2) head1 hl
  have he2 : entryLookup ([TreeEntry.mk "character.json" "100644" "blob" s1.nextSha] ++
      es1.filter (fun e =>
        [TreeEntry.mk "character.json" "100644" "blob" s1.nextSha].all
          (fun i => ¬ i.path = e.path))) "character.json" =
      some (TreeEntry.mk "character.json" "100644" "blob" s1.nextSha) :=
    find?_append_left _ _ _ rfl
  have hj1 : entryLookup [TreeEntry.mk "character.json" "100644" "blob" s1.nextSha]
      "card.png" = none := rfl
  have he3 : entryLookup ([TreeEntry.mk "character.json" "100644" "blob" s1.nextSha] ++
      es1.filter (fun e =>
        [TreeEntry.mk "character.json" "100644" "blob" s1.nextSha].all
          (fun i => ¬ i.path = e.path))) "card.png" = none := by
    rw [entryLookup, find?_append_right _ _ _ hj1]
    exact entryLookup_filter_none hpng1 _
  refine ⟨_, _, revert_run_nopng hj hp hl hc hes, ?_, ?_⟩
  · simp only [branchFileBytes, getRef, hr2]
    simp only [fileBytesAtCommit, fileBlobAtCommit, fileShaAtCommit, getCommit,
      lookup_cons_self]
    rw [he2]
    simp only [Option.map_some']
    rw [lookup_cons_self]
    simp only [Option.map_some']
    simp only [blobBytes]
    rw [if_neg (by decide : ¬ ("utf-8" : String) = "base64")]
    rw [base64_roundtrip jb hjlt, textBytes_textOfBytes jb hjlt]
  · simp only [branchFileBytes, getRef, hr2]
    simp only [fileBytesAtCommit, fileBlobAtCommit, fileShaAtCommit, getCommit,
      lookup_cons_self]
    rw [he3]
    rfl
/-- A successful first revert with `card.png` present at the target: the
resulting state extends the original with fresh objects only, and its new
head commit and tree are exposed for the second revert. -/
theorem first_revert_png_out {s : GitState} {br : String} {t : Nat}
    {j64 p64 : String} {jsha psha latest : Nat} {c0 : CommitObj} {es0 : List TreeEntry}
    (hj : getFileContent s (.commit t) "character.json" = .ok (some (j64, jsha)))
    (hp : getFileContent s (.commit t) "card.png" = .ok (some (p64, psha)))
    (hl : getRef s br = some latest)
    (hc : getCommit s latest = some c0)
    (hes : s.trees.lookup c0.tree = some es0) :
    ∃ s1 r1, revertToVersion s br t = .ok (s1, r1) ∧ StepExt s s1 ∧
      ∃ c1, getRef s1 br = some (s.nextSha + 3) ∧
        getCommit s1 (s.nextSha + 3) = some c1 ∧
        s1.trees.lookup c1.tree = some
          ([TreeEntry.mk "character.json" "100644" "blob" s.nextSha,
            TreeEntry.mk "card.png" "100644" "blob" (s.nextSha + 1)] ++
           es0.filter (fun e =>
             [TreeEntry.mk "character.json" "100644" "blob" s.nextSha,
              TreeEntry.mk "card.png" "100644" "blob" (s.nextSha + 1)].all
               (fun i => ¬ i.path = e.path))) := by
  refine ⟨_, _, revert_run_png hj hp hl hc hes,
    ⟨Nat.le_add_right s.nextSha 4,
     ⟨[(s.nextSha + 1, BlobObj.mk p64 "base64"),
       (s.nextSha, BlobObj.mk (textOfBytes (base64Decode j64)) "utf-8")], rfl, by simp⟩,
     ⟨[(s.nextSha + 2,
        [TreeEntry.mk "character.json" "100644" "blob" s.nextSha,
         TreeEntry.mk "card.png" "100644" "blob" (s.nextSha + 1)] ++
        es0.filter (fun e =>
          [TreeEntry.mk "character.json" "100644" "blob" s.nextSha,
           TreeEntry.mk "card.png" "100644" "blob" (s.nextSha + 1)].all
            (fun i => ¬ i.path = e.path)))], rfl, by simp⟩,
     ⟨[(s.nextSha + 3,
        CommitObj.mk ("回滚到版本 " ++ (toString t).take 7) (s.nextSha + 2) [latest])],
       rfl, by simp⟩⟩,
    CommitObj.mk ("回滚到版本 " ++ (toString t).take 7) (s.nextSha + 2) [latest],
    lookup_setAssoc_self s.refs br (s.nextSha + 3) latest hl,
    lookup_cons_self _ _ _,
    lookup_cons_self _ _ _⟩

/-- A successful first revert with `card.png` absent at the target: the
resulting state extends the original with fresh objects only, and its new
head commit and tree are exposed for the second revert. -/
theorem first_revert_nopng_out {s : GitState} {br : String} {t : Nat}
    {j64 : String} {jsha latest : Nat} {c0 : CommitObj} {es0 : List TreeEntry}
    (hj : getFileContent s (.commit t) "character.json" = .ok (some (j64, jsha)))
    (hp : getFileContent s (.commit t) "card.png" = .ok none)
    (hl : getRef s br = some latest)
    (hc : getCommit s latest = some c0)
    (hes : s.trees.lookup c0.tree = some es0) :
    ∃ s1 r1, revertToVersion s br t = .ok (s1, r1) ∧ StepExt s s1 ∧
      ∃ c1, getRef s1 br = some (s.nextSha + 2) ∧
        getCommit s1 (s.nextSha + 2) = some c1 ∧
        s1.trees.lookup c1.tree = some
          ([TreeEntry.mk "character.json" "100644" "blob" s.nextSha] ++
           es0.filter (fun e =>
             [TreeEntry.mk "character.json" "100644" "blob" s.nextSha].all
               (fun i => ¬ i.path = e.path))) := by
  refine ⟨_, _, revert_run_nopng hj hp hl hc hes,
    ⟨Nat.le_add_right s.nextSha 3,
     ⟨[(s.nextSha, BlobObj.mk (textOfBytes (base64Decode j64)) "utf-8")], rfl, by simp⟩,
     ⟨[(s.nextSha + 1,
        [TreeEntry.mk "character.json" "100644" "blob" s.nextSha] ++
        es0.filter (fun e =>
          [TreeEntry.mk "character.json" "100644" "blob" s.nextSha].all
            (fun i => ¬ i.path = e.path)))], rfl, by simp⟩,
     ⟨[(s.nextSha + 2,
        CommitObj.mk ("回滚到版本 " ++ (toString t).take 7) (s.nextSha + 1) [latest])],
       rfl, by simp⟩⟩,
    CommitObj.mk ("回滚到版本 " ++ (toString t).take 7) (s.nextSha + 1) [latest],
    lookup_setAssoc_self s.refs br (s.nextSha + 2) latest hl,
    lookup_cons_self _ _ _,
    lookup_cons_self _ _ _⟩
/-- C3 refuted as stated: on a repository whose head lacks `card.png` while
the revert target carries it, reverting to the target and then back to the
old head leaves `card.png` present, not byte-identical to the pre-revert
state (where it was absent). -/
theorem qiros_C3_counterexample :
    doubleRevert demoPngAtTarget "main" 5 6 = some (some [106, 49], some [65]) ∧
    branchFileBytes demoPngAtTarget "main" "card.png" = none ∧
    branchFileBytes demoPngAtTarget "main" "character.json" = some [106, 49] := by
  refine ⟨by rfl, by rfl, by rfl⟩

/-- C3 (amended): reverting to `t` and then back to the old head `h0` restores
the tracked contents byte-identically, provided the old head carries
`character.json` as bytes below 256 and `card.png` either exists at the old
head (bytes below 256) or exists neither at the old head nor at the target. -/
theorem qiros_C3 (s : GitState) (br : String) (t h0 : Nat)
    (c0 : CommitObj) (es0 : List TreeEntry) (je : TreeEntry) (jb : BlobObj)
    (jt : String × Nat)
    (hw : WfState s)
    (hl : getRef s br = some h0)
    (hc0 : getCommit s h0 = some c0)
    (hes0 : s.trees.lookup c0.tree = some es0)
    (hje : entryLookup es0 "character.json" = some je)
    (hjb : s.blobs.lookup je.sha = some jb)
    (hjlt : ∀ x ∈ blobBytes jb, x < 256)
    (hjt : getFileContent s (.commit t) "character.json" = .ok (some jt))
    (hpng : (∃ e pb, entryLookup es0 "card.png" = some e ∧
        s.blobs.lookup e.sha = some pb ∧ ∀ x ∈ blobBytes pb, x < 256) ∨
      (entryLookup es0 "card.png" = none ∧
        getFileContent s (.commit t) "card.png" = .ok none)) :
    doubleRevert s br t h0 = some
      (branchFileBytes s br "character.json", branchFileBytes s br "card.png") := by
  obtain ⟨j64t, jst⟩ := jt
  have hh0 : h0 < s.nextSha := hw.2.2.2 _ (lookup_eq_some_mem hl)
  have horigj : branchFileBytes s br "character.json" = some (blobBytes jb) := by
    rw [branchFileBytes_eq _ hl, fileBytesAtCommit_eq hc0 hes0, hje]
    simp only [Option.some_bind, hjb, Option.map_some']
  have hgj : getFileContent s (.commit h0) "character.json" =
      .ok (some (base64Encode (blobBytes jb), je.sha)) := by
    rw [getFileContent, getContentApi_commit_eq _ hc0 hes0]
    simp only [hje, hjb]
  rcases hpng with ⟨e, pb, hpe, hpb, hplt⟩ | ⟨hpe, hptn⟩
  · have horigp : branchFileBytes s br "card.png" = some (blobBytes pb) := by
      rw [branchFileBytes_eq _ hl, fileBytesAtCommit_eq hc0 hes0, hpe]
      simp only [Option.some_bind, hpb, Option.map_some']
    have hgp : getFileContent s (.commit h0) "card.png" =
        .ok (some (base64Encode (blobBytes pb), e.sha)) := by
      rw [getFileContent, getContentApi_commit_eq _ hc0 hes0]
      simp only [hpe, hpb]
    obtain ⟨pt, hpt⟩ := getFileContent_ok s (.commit t) "card.png"
    rcases pt with _ | ⟨p64t, pst⟩
    · obtain ⟨s1, r1, hr1, hst, c1, hl1, hc1, hes1⟩ :=
        first_revert_nopng_out hjt hpt hl hc0 hes0
      have hj2 : getFileContent s1 (.commit h0) "character.json" =
          .ok (some (base64Encode (blobBytes jb), je.sha)) := by
        rw [getFileContent_commit_stable hw hst hh0]; exact hgj
      have hp2 : getFileContent s1 (.commit h0) "card.png" =
          .ok (some (base64Encode (blobBytes pb), e.sha)) := by
        rw [getFileContent_commit_stable hw hst hh0]; exact hgp
      obtain ⟨s2, r2, hr2, hbj2, hbp2⟩ :=
        second_revert_png hj2 hp2 hl1 hc1 hes1 hjlt hplt
      rw [doubleRevert, hr1]
      simp only [hr2]
      rw [hbj2, hbp2, horigj, horigp]
    · obtain ⟨s1, r1, hr1, hst, c1, hl1, hc1, hes1⟩ :=
        first_revert_png_out hjt hpt hl hc0 hes0
      have hj2 : getFileContent s1 (.commit h0) "character.json" =
          .ok (some (base64Encode (blobBytes jb), je.sha)) := by
        rw [getFileContent_commit_stable hw hst hh0]; exact hgj
      have hp2 : getFileContent s1 (.commit h0) "card.png" =
          .ok (some (base64Encode (blobBytes pb), e.sha)) := by
        rw [getFileContent_commit_stable hw hst hh0]; exact hgp
      obtain ⟨s2, r2, hr2, hbj2, hbp2⟩ :=
        second_revert_png hj2 hp2 hl1 hc1 hes1 hjlt hplt
      rw [doubleRevert, hr1]
      simp only [hr2]
      rw [hbj2, hbp2, horigj, horigp]
  · have horigp : branchFileBytes s br "card.png" = none := by
      rw [branchFileBytes_eq _ hl, fileBytesAtCommit_eq hc0 hes0, hpe]
      rfl
    have hgp : getFileContent s (.commit h0) "card.png" = .ok none := by
      rw [getFileContent, getContentApi_commit_eq _ hc0 hes0]
      simp only [hpe]
      rfl
    obtain ⟨s1, r1, hr1, hst, c1, hl1, hc1, hes1⟩ :=
      first_revert_nopng_out hjt hptn hl hc0 hes0
    have hj2 : getFileContent s1 (.commit h0) "character.json" =
        .ok (some (base64Encode (blobBytes jb), je.sha)) := by
      rw [getFileContent_commit_stable hw hst hh0]; exact hgj
    have hp2 : getFileContent s1 (.commit h0) "card.png" = .ok none := by
      rw [getFileContent_commit_stable hw hst hh0]; exact hgp
    have hpng1 : entryLookup ([TreeEntry.mk "character.json" "100644" "blob" s.nextSha] ++
        es0.filter (fun e =>
          [TreeEntry.mk "character.json" "100644" "blob" s.nextSha].all
            (fun i => ¬ i.path = e.path))) "card.png" = none := by
      rw [entryLookup, find?_append_right _ _ _
        (rfl : List.find? (fun en => en.path = "card.png")
          [TreeEntry.mk "character.json" "100644" "blob" s.nextSha] = none)]
      exact entryLookup_filter_none hpe _
    obtain ⟨s2, r2, hr2, hbj2, hbp2⟩ :=
      second_revert_nopng hj2 hp2 hl1 hc1 hes1 hjlt hpng1
    rw [doubleRevert, hr1]
    simp only [hr2]
    rw [hbj2, hbp2, horigj, horigp]

theorem qiros_C3_witness :
    doubleRevert demoBothFiles "main" 6 7 = some
      (branchFileBytes demoBothFiles "main" "character.json",
       branchFileBytes demoBothFiles "main" "card.png") :=
  qiros_C3 demoBothFiles "main" 6 7 (CommitObj.mk "h" 5 [6])
    [TreeEntry.mk "character.json" "100644" "blob" 2,
     TreeEntry.mk "card.png" "100644" "blob" 3]
    (TreeEntry.mk "character.json" "100644" "blob" 2)
    (BlobObj.mk "[]" "utf-8")
    (base64Encode (textBytes "{}"), 0)
    (by decide) rfl rfl rfl rfl rfl (by decide) rfl
    (Or.inl ⟨TreeEntry.mk "card.png" "100644" "blob" 3, BlobObj.mk "Qg==" "base64",
      rfl, rfl, by decide⟩)
/-- The commit created by a successful `contentsWrite` carries the caller's
message. -/
theorem contentsWrite_message {s : GitState} {path msg content branch : String}
    {head baseTree : Nat} {s1 : GitState} {csha : Nat}
    (h : contentsWrite s path msg content branch head baseTree = .ok (s1, csha)) :
    ∃ c, getCommit s1 csha = some c ∧ c.message = msg := by
  rw [contentsWrite] at h
  simp only [createBlob, createTree, createCommit, updateRef] at h
  rcases h1 : List.lookup baseTree s.trees with _ | base <;> simp only [h1] at h
  · exact absurd h (by simp)
  · rcases h2 : List.lookup branch s.refs with _ | v <;> simp only [h2] at h
    · exact absurd h (by simp)
    · simp only [Except.ok.injEq, Prod.mk.injEq] at h
      obtain ⟨hs1, hcs⟩ := h
      subst hs1
      subst hcs
      exact ⟨_, lookup_cons_self _ _ _, rfl⟩

/-- The commit created by a successful `createOrUpdateFileContents` carries
the caller's message, on the bootstrap path and the ordinary path alike. -/
theorem createOrUpdateFileContents_message {s : GitState}
    {path msg content branch : String} {sha : Option Nat} {s1 : GitState} {csha : Nat}
    (h : createOrUpdateFileContents s path msg content branch sha = .ok (s1, csha)) :
    ∃ c, getCommit s1 csha = some c ∧ c.message = msg := by
  rw [createOrUpdateFileContents] at h
  rcases h1 : getRef s branch with _ | head <;> simp only [h1] at h
  · rcases h2 : s.refs.isEmpty with _ | _ <;> simp only [h2] at h
    · exact absurd h (by simp)
    · have hrefs : s.refs = [] := List.isEmpty_iff.mp h2
      simp only [createBlob, createTreeRoot, createCommit, createRef, hrefs,
        List.lookup_nil] at h
      rw [if_pos trivial] at h
      simp only [Except.ok.injEq, Prod.mk.injEq] at h
      obtain ⟨hs1, hcs⟩ := h
      subst hs1
      subst hcs
      exact ⟨_, lookup_cons_self _ _ _, rfl⟩
  · rcases h2 : getCommit s head with _ | headCommit <;> simp only [h2] at h
    · exact absurd h (by simp)
    · rcases h3 : s.trees.lookup headCommit.tree with _ | baseEntries <;>
        simp only [h3] at h
      · exact absurd h (by simp)
      · rcases h4 : entryLookup baseEntries path with _ | en <;>
          rcases sha with _ | given <;> simp only [h4] at h
        · exact contentsWrite_message h
        · exact absurd h (by simp)
        · exact absurd h (by simp)
        · by_cases h5 : given = en.sha
          · rw [if_pos h5] at h
            exact contentsWrite_message h
          · rw [if_neg h5] at h
            exact absurd h (by simp)

/-- C9 (amended): every commit created by a successful `revertToVersion` run
is the new branch head and carries the message `"回滚到版本 <short-sha>"`
(the Chinese label, not an English "revert to version" label), and every
bootstrap commit created by the empty-repository path of `createBranch`
carries `"Initial commit"` (capitalised), as witnessed against the code's
message construction. -/
theorem qiros_C9 :
    (∀ (s : GitState) (br : String) (t : Nat) (s' : GitState) (r : String × Option String),
      revertToVersion s br t = .ok (s', r) →
      ∃ head c, getRef s' br = some head ∧ getCommit s' head = some c ∧
        c.message = "回滚到版本 " ++ (toString t).take 7) ∧
    (∀ (s : GitState) (nb : String) (rc : Option String) (e : GhErr)
        (s1 : GitState) (b : String) (sha : Nat),
      createBranchCatch s nb rc e = .ok (s1, .bootstrapped b sha) →
      ∃ c, getCommit s1 sha = some c ∧ c.message = "Initial commit") := by
  constructor
  · intro s br t s' r h
    rw [revertToVersion] at h
    rcases h1 : getFileContent s (.commit t) "character.json" with e | jd <;>
      simp only [h1] at h
    · exact absurd h (by simp)
    · rcases jd with _ | jd
      · exact absurd h (by simp)
      · rcases h2 : getFileContent s (.commit t) "card.png" with e | po <;>
          simp only [h2] at h
        · exact absurd h (by simp)
        · rcases h3 : getRef s br with _ | latest <;> simp only [h3] at h
          · exact absurd h (by simp)
          · rcases h4 : getCommit s latest with _ | c0 <;> simp only [h4] at h
            · exact absurd h (by simp)
            · have h3' : List.lookup br s.refs = some latest := h3
              rcases po with _ | pd <;>
                simp only [Option.map_none', Option.map_some', createBlob, createTree,
                  createCommit, updateRef] at h <;>
                rcases h5 : List.lookup c0.tree s.trees with _ | base <;>
                  simp only [h5] at h
              · exact absurd h (by simp)
              · simp only [h3'] at h
                simp only [Except.ok.injEq, Prod.mk.injEq] at h
                obtain ⟨hs', hr'⟩ := h
                subst hs'
                exact ⟨_, _, lookup_setAssoc_self s.refs br _ latest h3',
                  lookup_cons_self _ _ _, rfl⟩
              · exact absurd h (by simp)
              · simp only [h3'] at h
                simp only [Except.ok.injEq, Prod.mk.injEq] at h
                obtain ⟨hs', hr'⟩ := h
                subst hs'
                exact ⟨_, _, lookup_setAssoc_self s.refs br _ latest h3',
                  lookup_cons_self _ _ _, rfl⟩
  · intro s nb rc e s1 b sha h
    rw [createBranchCatch] at h
    rcases he : e.is404 with _ | _ <;> simp only [he] at h
    · exact absurd h (by simp)
    · rcases h1 : createOrUpdateFileContents s "README.md" "Initial commit"
          (base64Encode (textBytes (chosenReadme rc))) nb none with e2 | pr <;>
        simp only [h1] at h
      · exact absurd h (by simp)
      · obtain ⟨s1', csha⟩ := pr
        rw [if_pos trivial] at h
        simp only [Except.ok.injEq, Prod.mk.injEq, CreateBranchResult.bootstrapped.injEq] at h
        obtain ⟨hs1, hb, hsha⟩ := h
        subst hs1
        subst hsha
        exact createOrUpdateFileContents_message h1

theorem qiros_C9_witness :
    (∃ head c, getRef demoReverted "main" = some head ∧
      getCommit demoReverted head = some c ∧
      c.message = "回滚到版本 " ++ (toString 2).take 7) ∧
    (∃ c, getCommit demoBootstrapped 2 = some c ∧ c.message = "Initial commit") :=
  ⟨qiros_C9.1 demoRepo "main" 2 demoReverted ("{}", none) rfl,
   qiros_C9.2 emptyRepo "main" (some "x") (GhErr.http 404) demoBootstrapped "main" 2 rfl⟩
/-- C4 refuted as stated: on the empty repository, the bootstrap with the
caller-supplied content `""` stores the fixed fallback seed document, not the
caller's (empty) content — JavaScript's `readmeContent || fallback` treats the
empty string as falsy. -/
theorem qiros_C4_counterexample :
    (∃ s1 sha, createBranch emptyRepo "main" none (some "") =
        .ok (s1, .bootstrapped "main" sha) ∧
      s1.blobs.lookup 0 =
        some (BlobObj.mk (base64Encode (textBytes fallbackReadme)) "base64")) ∧
    BlobObj.mk (base64Encode (textBytes fallbackReadme)) "base64" ≠
      BlobObj.mk (base64Encode (textBytes "")) "base64" := by
  exact ⟨⟨_, 2, rfl, rfl⟩, by decide⟩

/-- C4 (amended): on a repository with no refs, `createBranch` without a base
branch bootstraps by writing `README.md` on the new branch with the seed
content `chosenReadme rc` — the caller content when present AND non-empty,
the fixed fallback otherwise — creating the branch and its single parentless
commit in one write; any non-404 error in the catch path propagates
unchanged. -/
theorem qiros_C4 (s : GitState) (nb : String) (rc : Option String)
    (hrefs : s.refs = [])
    (hbt : ∀ x ∈ textBytes (chosenReadme rc), x < 256) :
    (∃ s1 sha, createBranch s nb none rc = .ok (s1, .bootstrapped nb sha) ∧
      getRef s1 nb = some sha ∧
      (∃ c, getCommit s1 sha = some c ∧ c.parents = [] ∧
        s1.trees.lookup c.tree =
          some [TreeEntry.mk "README.md" "100644" "blob" s.nextSha]) ∧
      branchFileBytes s1 nb "README.md" = some (textBytes (chosenReadme rc))) ∧
    (∀ e, e.is404 = false → createBranchCatch s nb rc e = .error e) := by
  have hl0 : ∀ b : String, List.lookup b s.refs = none := by
    intro b
    rw [hrefs]
    rfl
  have htry : createBranchTry s nb = .error (.http 404) := by
    rw [createBranchTry]
    simp only [getRef, hl0]
  have hboot : createOrUpdateFileContents s "README.md" "Initial commit"
      (base64Encode (textBytes (chosenReadme rc))) nb none = .ok
      ({ blobs := (s.nextSha,
            BlobObj.mk (base64Encode (textBytes (chosenReadme rc))) "base64") :: s.blobs
         trees := (s.nextSha + 1,
            [TreeEntry.mk "README.md" "100644" "blob" s.nextSha]) :: s.trees
         commits := (s.nextSha + 2,
            CommitObj.mk "Initial commit" (s.nextSha + 1) []) :: s.commits
         refs := [(nb, s.nextSha + 2)]
         defaultBranch := s.defaultBranch
         nextSha := s.nextSha + 3 }, s.nextSha + 2) := by
    rw [createOrUpdateFileContents]
    simp only [getRef, hl0, hrefs, List.isEmpty_nil, createBlob, createTreeRoot,
      createCommit, createRef, List.lookup_nil]
    rw [if_pos trivial]
  have hrun : createBranch s nb none rc = .ok
      ({ blobs := (s.nextSha,
            BlobObj.mk (base64Encode (textBytes (chosenReadme rc))) "base64") :: s.blobs
         trees := (s.nextSha + 1,
            [TreeEntry.mk "README.md" "100644" "blob" s.nextSha]) :: s.trees
         commits := (s.nextSha + 2,
            CommitObj.mk "Initial commit" (s.nextSha + 1) []) :: s.commits
         refs := [(nb, s.nextSha + 2)]
         defaultBranch := s.defaultBranch
         nextSha := s.nextSha + 3 }, .bootstrapped nb (s.nextSha + 2)) := by
    rw [createBranch]
    simp only [htry, createBranchCatch, GhErr.is404]
    rw [if_pos trivial]
    simp only [hboot]
    rfl
  constructor
  · refine ⟨_, s.nextSha + 2, hrun, lookup_cons_self _ _ _,
      ⟨_, lookup_cons_self _ _ _, rfl, lookup_cons_self _ _ _⟩, ?_⟩
    have hr1 : List.lookup nb [(nb, s.nextSha + 2)] = some (s.nextSha + 2) :=
      lookup_cons_self _ _ _
    simp only [branchFileBytes, getRef, hr1]
    simp only [fileBytesAtCommit, fileBlobAtCommit, fileShaAtCommit, getCommit,
      lookup_cons_self]
    rw [show entryLookup [TreeEntry.mk "README.md" "100644" "blob" s.nextSha]
        "README.md" = some (TreeEntry.mk "README.md" "100644" "blob" s.nextSha) from rfl]
    simp only [Option.map_some']
    rw [lookup_cons_self]
    simp only [Option.map_some', blobBytes]
    rw [base64_roundtrip _ hbt]
    simp
  · intro e he
    rw [createBranchCatch]
    simp [he]

theorem qiros_C4_witness :
    emptyRepo.refs = [] ∧
    (∀ x ∈ textBytes (chosenReadme (some "# hello")), x < 256) ∧
    ((∃ s1 sha, createBranch emptyRepo "main" none (some "# hello") =
        .ok (s1, .bootstrapped "main" sha) ∧
      getRef s1 "main" = some sha ∧
      (∃ c, getCommit s1 sha = some c ∧ c.parents = [] ∧
        s1.trees.lookup c.tree =
          some [TreeEntry.mk "README.md" "100644" "blob" emptyRepo.nextSha]) ∧
      branchFileBytes s1 "main" "README.md" =
        some (textBytes (chosenReadme (some "# hello")))) ∧
    (∀ e, e.is404 = false → createBranchCatch emptyRepo "main" (some "# hello") e =
      .error e)) :=
  ⟨rfl, by decide, qiros_C4 emptyRepo "main" (some "# hello") rfl (by decide)⟩
